import Mathlib

/-!
# richardparker: brace parser, macro compiler and path runtime

A shallow embedding of `index.js` (parser, built-in macros, helpers, runtime
functions `resolve`, `each`, `addToPath`) and of `literal.rejoin` from
`src/macro.js`.

Conventions of the embedding

* JavaScript strings are lists of characters (`Str`).
* A thrown exception is the `error` case of `Except JsError`.
* JavaScript arrays that are mutated in place are modelled by the value they
  hold at each point of the execution.
-/

namespace RichardParker

/-- JavaScript strings, as character lists. -/
abbrev Str := List Char

/-- The exceptions the code can throw. `error msg` is `new Error(msg)`;
`typeError`, `referenceError` and `rangeError` are raised by the JavaScript
runtime itself. `notModelled` marks generated source that lies outside the
fragment this embedding gives a meaning to. -/
inductive JsError where
  | error (msg : Str)
  | typeError
  | referenceError
  | rangeError
  | notModelled
  deriving DecidableEq, Repr

deriving instance DecidableEq for Except

/-- The tree built by `parse`: a JavaScript array whose items are strings
(`text`) or nested arrays (`group`). A tree is the list of items of its
root array. -/
inductive Node where
  | text (s : Str)
  | group (cs : List Node)
  deriving Repr

mutual
/-- Decidable equality of nodes. -/
def Node.decEq : (a b : Node) → Decidable (a = b)
  | .text s, .text t =>
    if h : s = t then isTrue (by rw [h]) else isFalse (by intro h2; cases h2; exact h rfl)
  | .group cs, .group ds =>
    match Node.decEqList cs ds with
    | isTrue h => isTrue (by rw [h])
    | isFalse h => isFalse (by intro h2; cases h2; exact h rfl)
  | .text _, .group _ => isFalse (by intro h; cases h)
  | .group _, .text _ => isFalse (by intro h; cases h)
/-- Decidable equality of lists of nodes. -/
def Node.decEqList : (a b : List Node) → Decidable (a = b)
  | [], [] => isTrue rfl
  | [], _ :: _ => isFalse (by intro h; cases h)
  | _ :: _, [] => isFalse (by intro h; cases h)
  | a :: as, b :: bs =>
    match Node.decEq a b, Node.decEqList as bs with
    | isTrue h1, isTrue h2 => isTrue (by rw [h1, h2])
    | isFalse h1, _ => isFalse (by intro h; cases h; exact h1 rfl)
    | _, isFalse h2 => isFalse (by intro h; cases h; exact h2 rfl)
end

instance : DecidableEq Node := Node.decEq

/-! ## `parse` (index.js, lines 59-85) -/

mutual
/-- The method `Array.prototype.toString` on a tree: the items joined with `,`. Only
used where `parse` would apply `+=` to an array item. -/
def Node.joinComma : List Node → Str
  | [] => []
  | [n] => Node.toStr n
  | n :: rest => Node.toStr n ++ ',' :: Node.joinComma rest
/-- String conversion of one tree item. -/
def Node.toStr : Node → Str
  | .text s => s
  | .group cs => Node.joinComma cs
end

/-- The statement `current[current.length - 1] += ch`. On an empty array the statement
writes the property `-1` and leaves the items unchanged; on an array whose
last item is an array the item is replaced by its string conversion
followed by `ch`. -/
def appendChar : List Node → Char → List Node
  | [], _ => []
  | [.text s], ch => [.text (s ++ [ch])]
  | [.group g], ch => [.text (Node.joinComma g ++ [ch])]
  | n :: m :: rest, ch => n :: appendChar (m :: rest) ch

/-- The loop state of `parse`: the array `current` and the `stack` of open
arrays (head = top of the stack). -/
structure PState where
  current : List Node
  stack : List (List Node)
  deriving Repr

/-- One iteration of the `for` loop of `parse`: the `switch` on `str[i]`.
With an empty stack `stack.pop()` is `undefined` and `parent.push` throws a
`TypeError`. -/
def parseStep (st : PState) (ch : Char) : Except JsError PState :=
  if ch = '{' then
    .ok ⟨[.text []], st.current :: st.stack⟩
  else if ch = '}' then
    match st.stack with
    | [] => .error .typeError
    | parent :: rest => .ok ⟨parent ++ [.group st.current, .text []], rest⟩
  else
    .ok ⟨appendChar st.current ch, st.stack⟩

/-- The `for` loop of `parse` over the remaining characters. -/
def parseLoop : PState → Str → Except JsError PState
  | st, [] => .ok st
  | st, ch :: rest =>
    match parseStep st ch with
    | .error e => .error e
    | .ok st1 => parseLoop st1 rest

/-- The function `parse(str)`. `results` is the root array; it is `current` whenever the
stack is empty (every other array is reachable only through the stack or as
an item), so the value returned on success is `current`. -/
def parse (str : Str) : Except JsError (List Node) :=
  match parseLoop ⟨[.text []], []⟩ str with
  | .error e => .error e
  | .ok st =>
    if st.stack.length ≠ 0 then .error (.error "Unmatched brace".toList)
    else .ok st.current

/-! ## `rejoin` (src/macro.js, lines 85-95) -/

mutual
/-- The function `rejoin(tree)`: the items in order, every nested array wrapped in
braces, joined without separator. -/
def rejoin : List Node → Str
  | [] => []
  | n :: rest => rejoinItem n ++ rejoin rest
/-- The text `rejoin` pushes for one item. -/
def rejoinItem : Node → Str
  | .text s => s
  | .group cs => '{' :: (rejoin cs ++ ['}'])
end

/-- The braces of `s` balance: no prefix closes more groups than it has
opened, and the whole source opens as many as it closes. -/
def Balanced (s : Str) : Prop :=
  (∀ n, n ≤ s.length → (s.take n).count '}' ≤ (s.take n).count '{') ∧
    s.count '{' = s.count '}'

instance (s : Str) : Decidable (Balanced s) := by
  unfold Balanced; exact inferInstance


/-! ## Data values -/

/-- The data a template is rendered against: JSON-like JavaScript values.

* `num n` is the number `n`, an integer; its decimal form is its string
  form for `|n| < 2^53`, the integers every JavaScript number represents
  exactly (beyond that the conversion is `notModelled`).
* `str s` is a string of characters of the Basic Multilingual Plane, for
  which a character is one UTF-16 unit.
* The properties of an object are listed in enumeration order and carry
  distinct keys.
* Property lookup on these values (`ownProp`) covers own properties, array
  and string indices and `length`. What a value inherits from the built-in
  prototypes is not part of the data; `resolveWith` states `resolve` for
  any property access, inherited properties included. -/
inductive JSVal where
  | undefined
  | null
  | bool (b : Bool)
  | num (n : Int)
  | str (s : Str)
  | arr (items : List JSVal)
  | obj (props : List (Str × JSVal))
  deriving Repr

/-- JavaScript truthiness (`if (v)`, `v || w`, `v && w`). -/
def truthy : JSVal → Bool
  | .undefined => false
  | .null => false
  | .bool b => b
  | .num n => decide (n ≠ 0)
  | .str s => !s.isEmpty
  | .arr _ => true
  | .obj _ => true

/-- The test `typeof v === "undefined"`. -/
def JSVal.isUndefined : JSVal → Bool
  | .undefined => true
  | _ => false

/-- The conversion `String(i)` for an array index. -/
def natToStr (i : Nat) : Str := Nat.toDigits 10 i

/-- The conversion `String(n)` for an integer `n` with `|n| < 2^53`. -/
def numToStr (n : Int) : Str :=
  if n < 0 then '-' :: natToStr n.natAbs else natToStr n.natAbs

/-- The value of the own property `k` in a property list. -/
def lookupKey (k : Str) : List (Str × JSVal) → Option JSVal
  | [] => none
  | (k1, v) :: rest => if k1 = k then some v else lookupKey k rest

/-- The array index a property key denotes, below `n`: the key is the
decimal form of the index. -/
def indexOfKey (n : Nat) (k : Str) : Option Nat :=
  (List.range n).find? (fun i => natToStr i = k)

/-- The value of `v[k]` for a value `v` other than `null` and `undefined`. -/
def ownProp : JSVal → Str → JSVal
  | .obj props, k => (lookupKey k props).getD .undefined
  | .arr items, k =>
    if k = "length".toList then .num items.length
    else match indexOfKey items.length k with
      | some i => items.getD i .undefined
      | none => .undefined
  | .str s, k =>
    if k = "length".toList then .num s.length
    else match indexOfKey s.length k with
      | some i => .str ((s.drop i).take 1)
      | none => .undefined
  | _, _ => .undefined

/-- The property access `v[k]`: a `TypeError` on `null` and `undefined`. -/
def getProp : JSVal → Str → Except JsError JSVal
  | .undefined, _ => .error .typeError
  | .null, _ => .error .typeError
  | v, k => .ok (ownProp v k)

mutual
/-- The text `Array.prototype.join` uses for one element: empty for
`undefined` and `null`, the string conversion otherwise. A number below
`2^53` in absolute value converts to its decimal form. An object converts
to `[object Object]`, unless it has an own property `toString` (never
callable in JSON-like data): then it has no primitive value and the
conversion throws a `TypeError`. -/
def JSVal.joinElem : JSVal → Except JsError Str
  | .undefined => .ok []
  | .null => .ok []
  | .bool b => .ok (if b then "true".toList else "false".toList)
  | .num n => if n.natAbs < 9007199254740992 then .ok (numToStr n) else .error .notModelled
  | .str s => .ok s
  | .arr items => JSVal.joinComma items
  | .obj props =>
    if (lookupKey "toString".toList props).isSome then .error .typeError
    else .ok "[object Object]".toList
/-- The call `items.join(",")`, the string conversion of an array. -/
def JSVal.joinComma : List JSVal → Except JsError Str
  | [] => .ok []
  | [v] => JSVal.joinElem v
  | v :: w :: rest =>
    match JSVal.joinElem v, JSVal.joinComma (w :: rest) with
    | .ok a, .ok b => .ok (a ++ ',' :: b)
    | .error e, _ => .error e
    | _, .error e => .error e
end

/-! ## Runtime functions (index.js, lines 284-334) -/

/-- The function `addToPath(path, part)`; both arguments already in string
form. -/
def addToPath (path part : Str) : Str :=
  if path = [] ∧ part = [] then ['.']
  else if part = ['.'] ∨ part = [] then path
  else if path ≠ [] then path ++ '.' :: part
  else part

/-- First segment and remaining segments of `path.split(/\./)`. -/
def splitDotAux : Str → Str × List Str
  | [] => ([], [])
  | ch :: rest =>
    if ch = '.' then ([], (splitDotAux rest).1 :: (splitDotAux rest).2)
    else (ch :: (splitDotAux rest).1, (splitDotAux rest).2)

/-- The segments `path.split(/\./)`. -/
def splitDot (path : Str) : List Str := (splitDotAux path).1 :: (splitDotAux path).2

/-- The `while` loop of `resolve`: returns the final `obj` and the `parts`
that are left. -/
def resolveLoop : JSVal → List Str → Except JsError (JSVal × List Str)
  | obj, [] => .ok (obj, [])
  | obj, part :: rest =>
    match getProp obj part with
    | .error e => .error e
    | .ok v => if truthy v then resolveLoop v rest else .ok (obj, part :: rest)

/-- The function `resolve(path)`, with the free variable `data` of the
source made a parameter. -/
def resolve (data : JSVal) (path : Str) : Except JsError JSVal :=
  if path = [] ∨ path = ['.'] then .ok data
  else
    match resolveLoop data (splitDot path) with
    | .error e => .error e
    | .ok (obj, parts) => if parts.length > 0 then .ok .undefined else .ok obj

/-- The keys `each(obj, iterator)` passes to `iterator`, in order, each in
its string form (the callbacks of the generated code use the key only
through `addToPath`, which applies `String` to it). A falsy value has none;
an array has its indices; any other value is enumerated by `for ... in` and
filtered by `obj.hasOwnProperty(key)`, which throws a `TypeError` when the
object has an own property of that name (not callable in JSON-like data). A
string primitive enumerates its indices. -/
def eachKeys (v : JSVal) : Except JsError (List Str) :=
  if !truthy v then .ok []
  else match v with
    | .arr items => .ok ((List.range items.length).map natToStr)
    | .obj props =>
      if props.isEmpty then .ok []
      else if (lookupKey "hasOwnProperty".toList props).isSome then .error .typeError
      else .ok (props.map Prod.fst)
    | .str s => .ok ((List.range s.length).map natToStr)
    | _ => .ok []

/-- The calls `iterator(key)` of `each` for the keys in order; `iterator`
acts on the variable `path` of its closure and on the output, so the calls
thread the path and concatenate the text pushed. -/
def eachM (iterator : Str → Str → Except JsError (Str × Str)) :
    List Str → Str → Except JsError (Str × Str)
  | [], path => .ok (path, [])
  | k :: ks, path =>
    match iterator k path with
    | .error e => .error e
    | .ok (p1, o1) =>
      match eachM iterator ks p1 with
      | .error e => .error e
      | .ok (p2, o2) => .ok (p2, o1 ++ o2)

/-- The function `each(obj, iterator)` at run time. -/
def each (obj : JSVal) (iterator : Str → Str → Except JsError (Str × Str)) (path : Str) :
    Except JsError (Str × Str) :=
  match eachKeys obj with
  | .error e => .error e
  | .ok keys => eachM iterator keys path

/-! ## The generated program -/

/-- The statements the built-in macros generate. `lit` is the text spliced
between the double quotes of a string literal of the generated source.

* `pushLit lit`: `__out.push("lit");`
* `pushResolve lit`: `__out.push(resolve(addToPath(path, "lit")));`
* `pushPath lit`: `__out.push(addToPath(path, "lit"));`
* `setPath lit`: `path = addToPath(path, "lit");`
* `setPathItem`: `path = addToPath(path, __itemPath);`
* `keepPath body`: `(function (path) { body }(path));`
* `ifResolved lit body`:
  `if (typeof resolve(addToPath(path, "lit")) !== "undefined") { body }`
* `eachResolved body`: `each(resolve(path), function (__itemPath) { body });`
-/
inductive Stmt where
  | pushLit (lit : Str)
  | pushResolve (lit : Str)
  | pushPath (lit : Str)
  | setPath (lit : Str)
  | setPathItem
  | keepPath (body : List Stmt)
  | ifResolved (lit : Str) (body : List Stmt)
  | eachResolved (body : List Stmt)
  deriving Repr

/-- Generated source code: a sequence of statements. -/
abbrev Code := List Stmt

/-- The character an escape sequence `\ch` of a string literal denotes, for
the single-character escapes and the characters that stand for themselves.
Numeric escapes (`\0`-`\9`, `\x`, `\u`) and line continuations are not
covered. -/
def unescapeChar (ch : Char) : Option Char :=
  if ch = 'n' then some (Char.ofNat 10)
  else if ch = 't' then some (Char.ofNat 9)
  else if ch = 'r' then some (Char.ofNat 13)
  else if ch = 'b' then some (Char.ofNat 8)
  else if ch = 'f' then some (Char.ofNat 12)
  else if ch = 'v' then some (Char.ofNat 11)
  else if ch.isDigit ∨ ch = 'x' ∨ ch = 'u' ∨ ch = Char.ofNat 10 ∨ ch = Char.ofNat 13
      ∨ ch = Char.ofNat 0x2028 ∨ ch = Char.ofNat 0x2029 then none
  else some ch

/-- The string denoted by the JavaScript literal `"lit"`. `none` when `lit`
is not the body of one double-quoted literal of the covered fragment: an
unescaped double quote, line feed or carriage return, a backslash at the
end, or an escape that `unescapeChar` does not cover. Every other character
stands for itself (ECMAScript 2019 for U+2028 and U+2029). -/
def decodeLit : Str → Option Str
  | [] => some []
  | ch :: rest =>
    if ch = '\\' then
      match rest with
      | [] => none
      | e :: rest2 =>
        match unescapeChar e, decodeLit rest2 with
        | some x, some r => some (x :: r)
        | _, _ => none
    else if ch = '"' ∨ ch = Char.ofNat 10 ∨ ch = Char.ofNat 13 then none
    else
      match decodeLit rest with
      | some r => some (ch :: r)
      | none => none

mutual
/-- Execution of one generated statement. `data` is the template function's
parameter, `item` the parameter `__itemPath` of the enclosing `each`
callback (if any), the last argument the current value of the variable
`path` in scope. The result is the value of that variable afterwards and
the text the statement appends to the output: every value pushed on
`__out` is converted as `__out.join("")` converts it. -/
def exec (data : JSVal) (item : Option Str) : Stmt → Str → Except JsError (Str × Str)
  | .pushLit lit, path =>
    match decodeLit lit with
    | none => .error .notModelled
    | some s => .ok (path, s)
  | .pushResolve lit, path =>
    match decodeLit lit with
    | none => .error .notModelled
    | some p =>
      match resolve data (addToPath path p) with
      | .error e => .error e
      | .ok v =>
        match JSVal.joinElem v with
        | .error e => .error e
        | .ok s => .ok (path, s)
  | .pushPath lit, path =>
    match decodeLit lit with
    | none => .error .notModelled
    | some p => .ok (path, addToPath path p)
  | .setPath lit, path =>
    match decodeLit lit with
    | none => .error .notModelled
    | some p => .ok (addToPath path p, [])
  | .setPathItem, path =>
    match item with
    | none => .error .referenceError
    | some k => .ok (addToPath path k, [])
  | .keepPath body, path =>
    match execList data item body path with
    | .error e => .error e
    | .ok (_, out) => .ok (path, out)
  | .ifResolved lit body, path =>
    match decodeLit lit with
    | none => .error .notModelled
    | some p =>
      match resolve data (addToPath path p) with
      | .error e => .error e
      | .ok v => if v.isUndefined then .ok (path, []) else execList data item body path
  | .eachResolved body, path =>
    match resolve data path with
    | .error e => .error e
    | .ok v => each v (fun k p => execList data (some k) body p) path
/-- Execution of a sequence of statements. -/
def execList (data : JSVal) (item : Option Str) : List Stmt → Str → Except JsError (Str × Str)
  | [], path => .ok (path, [])
  | s :: rest, path =>
    match exec data item s path with
    | .error e => .error e
    | .ok (p1, o1) =>
      match execList data item rest p1 with
      | .error e => .error e
      | .ok (p2, o2) => .ok (p2, o1 ++ o2)
end

mutual
/-- Every string literal of the statement is covered by `decodeLit`. -/
def Stmt.litsOk : Stmt → Bool
  | .pushLit lit => (decodeLit lit).isSome
  | .pushResolve lit => (decodeLit lit).isSome
  | .pushPath lit => (decodeLit lit).isSome
  | .setPath lit => (decodeLit lit).isSome
  | .setPathItem => true
  | .keepPath body => Stmt.litsOkList body
  | .ifResolved lit body => (decodeLit lit).isSome && Stmt.litsOkList body
  | .eachResolved body => Stmt.litsOkList body
/-- Every string literal of the code is covered by `decodeLit`. -/
def Stmt.litsOkList : List Stmt → Bool
  | [] => true
  | s :: rest => Stmt.litsOk s && Stmt.litsOkList rest
end

/-- The compiled template function returned by `helper.wrapTemplate`. -/
structure Program where
  code : Code
  deriving Repr

/-- The function `helper.wrapTemplate(code)`: `new Function` parses the
generated source. Source with a string literal outside the covered fragment
is rejected as `notModelled`. -/
def wrapTemplate (code : Code) : Except JsError Program :=
  if Stmt.litsOkList code then .ok ⟨code⟩ else .error .notModelled

/-- A call of the template function: `var path = "", __out = [];
data = data || {};`, the generated code, `return __out.join("");`. -/
def Program.run (prog : Program) (data : JSVal) : Except JsError Str :=
  match execList (if truthy data then data else .obj []) none prog.code [] with
  | .error e => .error e
  | .ok (_, out) => .ok out

/-! ## Helpers for generating code (index.js, lines 185-274) -/

/-- The class `\s` of JavaScript regular expressions. -/
def isSpace (ch : Char) : Bool :=
  let n := ch.toNat
  decide (n = 9 ∨ n = 10 ∨ n = 11 ∨ n = 12 ∨ n = 13 ∨ n = 32 ∨ n = 0xA0 ∨ n = 0x1680 ∨
    (0x2000 ≤ n ∧ n ≤ 0x200A) ∨ n = 0x2028 ∨ n = 0x2029 ∨ n = 0x202F ∨ n = 0x205F ∨
    n = 0x3000 ∨ n = 0xFEFF)

/-- The function `helper.parseArg(tree)`: the leading run of non-whitespace
characters of `tree[0]`, and the tree after the assignment to `tree[0]`
(the argument and the whitespace after it removed). When `tree[0]` is not a
string, `tree[0].substr` throws a `TypeError`. -/
def parseArg : List Node → Except JsError (Str × List Node)
  | .text s :: rest =>
    .ok (s.takeWhile (fun ch => !isSpace ch),
      .text ((s.drop (s.takeWhile (fun ch => !isSpace ch)).length).dropWhile isSpace) :: rest)
  | _ => .error .typeError

/-- The function `helper.parsePath(tree)`: `helper.parseArg(tree) || ''`. -/
def parsePath (tree : List Node) : Except JsError (Str × List Node) := parseArg tree

/-- The call `str.replace(/ch/g, by)`: every occurrence of one character
replaced. -/
def replaceChar (ch : Char) (by1 : Str) : Str → Str
  | [] => []
  | c :: rest => if c = ch then by1 ++ replaceChar ch by1 rest else c :: replaceChar ch by1 rest

/-- The function `helper.escapeJS(str)`: the three replacements, in the
order of the source. -/
def escapeJS (str : Str) : Str :=
  replaceChar (Char.ofNat 10) ['\\', 'n']
    (replaceChar '\'' ['\\', '\''] (replaceChar '"' ['\\', '"'] str))

/-- The function `helper.output(str)`: nothing for the empty string,
otherwise one `push` of the escaped text. -/
def output (str : Str) : Code :=
  if str = [] then [] else [.pushLit (escapeJS str)]

/-- The callback `transform` handed to a macro. -/
abbrev Transform := List Node → Except JsError Code

/-- A macro: a function of the tree (after `parseArg` has removed the macro
name) and the `transform` callback, returning generated code. -/
abbrev Macro := List Node → Transform → Except JsError Code

/-- The function `helper.transformTree(tree, transform)`: the items in
order, strings through `helper.output`, arrays through `transform`. -/
def transformTree : List Node → Transform → Except JsError Code
  | [], _ => .ok []
  | .text s :: rest, transform =>
    match transformTree rest transform with
    | .error e => .error e
    | .ok c => .ok (output s ++ c)
  | .group g :: rest, transform =>
    match transform g with
    | .error e => .error e
    | .ok c1 =>
      match transformTree rest transform with
      | .error e => .error e
      | .ok c2 => .ok (c1 ++ c2)

/-- The function `helper.keepPath(code)`: the code wrapped in a closure with
its own variable `path`. -/
def keepPath (code : Code) : Code := [.keepPath code]

/-! ## Built-in macros (index.js, lines 91-178) -/

/-- The macro `nativeMacros['.']`. -/
def dotMacro : Macro := fun tree _ =>
  match parsePath tree with
  | .error e => .error e
  | .ok (path, _) => .ok [.pushResolve path]

/-- The macro `nativeMacros['->']`. -/
def arrowMacro : Macro := fun tree transform =>
  match parsePath tree with
  | .error e => .error e
  | .ok (path, tree1) =>
    match transformTree tree1 transform with
    | .error e => .error e
    | .ok body => .ok (keepPath (.setPath path :: body))

/-- The macro `nativeMacros.has`. -/
def hasMacro : Macro := fun tree transform =>
  match parsePath tree with
  | .error e => .error e
  | .ok (path, tree1) =>
    match transformTree tree1 transform with
    | .error e => .error e
    | .ok body => .ok [.ifResolved path body]

/-- The macro `nativeMacros.each`. -/
def eachMacro : Macro := fun tree transform =>
  match parsePath tree with
  | .error e => .error e
  | .ok (path, tree1) =>
    match transformTree tree1 transform with
    | .error e => .error e
    | .ok body =>
      .ok (keepPath [.setPath path, .eachResolved (keepPath (.setPathItem :: body))])

/-- The macro `nativeMacros.path`. -/
def pathMacro : Macro := fun tree _ =>
  match parsePath tree with
  | .error e => .error e
  | .ok (path, _) => .ok [.pushPath path]

/-- The macro `nativeMacros.out`. -/
def outMacro : Macro := fun tree transform => transformTree tree transform

/-- The own properties of the object `nativeMacros`. -/
def nativeMacros (name : Str) : Option Macro :=
  if name = ".".toList then some dotMacro
  else if name = "->".toList then some arrowMacro
  else if name = "has".toList then some hasMacro
  else if name = "each".toList then some eachMacro
  else if name = "path".toList then some pathMacro
  else if name = "out".toList then some outMacro
  else none

/-! ## `compile` and `render` (index.js, lines 14-43) -/

/-- The property names every plain object inherits from `Object.prototype`. -/
def objectPrototypeKeys : List Str :=
  ["constructor".toList, "toString".toList, "toLocaleString".toList, "valueOf".toList,
   "hasOwnProperty".toList, "isPrototypeOf".toList, "propertyIsEnumerable".toList,
   "__proto__".toList, "__defineGetter__".toList, "__defineSetter__".toList,
   "__lookupGetter__".toList, "__lookupSetter__".toList]

/-- The value of `table[name]` for a macro table whose own properties are
`own`: an own macro, a property inherited from `Object.prototype` (truthy,
but no macro), or `undefined`. -/
inductive Slot where
  | fn (m : Macro)
  | inherited
  | absent

/-- The lookup `table[name]`. -/
def lookupTable (own : Str → Option Macro) (name : Str) : Slot :=
  match own name with
  | some m => .fn m
  | none => if name ∈ objectPrototypeKeys then .inherited else .absent

/-- The lookup `macros[macroName] || nativeMacros[macroName]`. -/
def lookupMacro (macros : Str → Option Macro) (macroName : Str) : Slot :=
  match lookupTable macros macroName with
  | .absent => lookupTable nativeMacros macroName
  | found => found

/-- The call `macro(tree, transform)` when `macro` is a property inherited
from `Object.prototype`. Every inherited property other than `constructor`
and `toString` is not callable or throws a `TypeError` on the receiver
`undefined`. `constructor` returns its argument and `toString` returns
`"[object Undefined]"`: no exception is thrown, the string form of that
value is concatenated to the generated source, and what the program then
does is outside the statements of `Stmt`; the embedding gives this case
no meaning (`notModelled`, which is no exception of the code). -/
def callInherited (name : Str) : Except JsError Code :=
  if name = "constructor".toList ∨ name = "toString".toList then .error .notModelled
  else .error .typeError

/-- The inner function `transform` of `compile`; `depth` bounds the nesting
of its calls (the call stack), beyond which a `RangeError` is thrown. -/
def transform (macros : Str → Option Macro) : Nat → List Node → Except JsError Code
  | 0, _ => .error .rangeError
  | depth + 1, tree =>
    match parseArg tree with
    | .error e => .error e
    | .ok (macroName, tree1) =>
      match lookupMacro macros macroName with
      | .fn m => m tree1 (transform macros depth)
      | .inherited => callInherited macroName
      | .absent => .error (.error ("Not a macro:".toList ++ macroName))

/-- The function `compile(input, macros)`; `macros` holds the own properties
of the caller's table (none when the argument is omitted). -/
def compile (depth : Nat) (macros : Str → Option Macro) (input : Str) :
    Except JsError Program :=
  match parse ("out ".toList ++ input) with
  | .error e => .error e
  | .ok tree =>
    match transform macros depth tree with
    | .error e => .error e
    | .ok code => wrapTemplate code

/-- The function `render(str, data, macros)`. -/
def render (depth : Nat) (macros : Str → Option Macro) (str : Str) (data : JSVal) :
    Except JsError Str :=
  match compile depth macros str with
  | .error e => .error e
  | .ok prog => prog.run data

/-- No user macros: `compile(input)`. -/
def noMacros : Str → Option Macro := fun _ => none

/-! ## Specification-side definitions -/

/-- Nesting depth reached after reading `r` from depth `d`; `none` when a
`}` is read at depth 0. -/
def scanDepth : Nat → Str → Option Nat
  | d, [] => some d
  | d, ch :: rest =>
    if ch = '{' then scanDepth (d + 1) rest
    else if ch = '}' then
      match d with
      | 0 => none
      | k + 1 => scanDepth k rest
    else scanDepth d rest

/-- The source text read so far that is still held on the stack: every open
array followed by its opening brace (bottom of the stack first). -/
def openPrefix : List (List Node) → Str
  | [] => []
  | f :: below => openPrefix below ++ rejoin f ++ ['{']

/-- The source text a parser state stands for. -/
def unparse (st : PState) : Str := openPrefix st.stack ++ rejoin st.current

/-- The text of a run: its output without the final value of `path`. -/
def outputOf (r : Except JsError (Str × Str)) : Except JsError Str :=
  match r with
  | .error e => .error e
  | .ok (_, out) => .ok out

/-- The concatenation of the outputs of a sequence of runs, in order; the
first exception aborts. -/
def concatRuns : List (Except JsError Str) → Except JsError Str
  | [] => .ok []
  | r :: rest =>
    match r with
    | .error e => .error e
    | .ok o1 =>
      match concatRuns rest with
      | .error e => .error e
      | .ok o2 => .ok (o1 ++ o2)

/-- A statement's result when it leaves `path` at `c` and appends the text
of `r`. -/
def emits (c : Str) (r : Except JsError Str) : Except JsError (Str × Str) :=
  match r with
  | .error e => .error e
  | .ok out => .ok (c, out)

/-- Segment lookup on the data values: the segments are looked up one after
another; the value reached is returned if every lookup yields a truthy
value, `undefined` as soon as a segment is missing or its value is falsy. -/
def lookupSegments : JSVal → List Str → JSVal
  | v, [] => v
  | v, seg :: rest =>
    if truthy (ownProp v seg) then lookupSegments (ownProp v seg) rest else .undefined

/-- The composition rule of the specification: `.` when both are empty;
base unchanged when the segment is `.` or empty; otherwise the segment
alone when the base is empty, and base, `.`, segment when it is not. -/
def addToPathSpec (base segment : Str) : Str :=
  if base = [] ∧ segment = [] then ".".toList
  else if segment = ".".toList ∨ segment = [] then base
  else if base = [] then segment
  else base ++ ".".toList ++ segment

/-! ## Example data -/

/-- The value `{pages:[{title:"A"},{title:"B"}]}`. -/
def pagesData : JSVal :=
  .obj [("pages".toList,
    .arr [.obj [("title".toList, .str "A".toList)], .obj [("title".toList, .str "B".toList)]])]

/-- The value `{title:"X"}`. -/
def titleData : JSVal := .obj [("title".toList, .str "X".toList)]

/-- The value `{"a":"WRONG","\\a":"RIGHT"}`: one key is `a`, the other the
two characters backslash, `a`. -/
def backslashData : JSVal :=
  .obj [("a".toList, .str "WRONG".toList), (['\\', 'a'], .str "RIGHT".toList)]

/-- The value `{foo: {"": "E", ".": "D", "a.b": "X"}}`. -/
def oddKeysData : JSVal :=
  .obj [("foo".toList,
    .obj [([], .str "E".toList), (".".toList, .str "D".toList),
      ("a.b".toList, .str "X".toList)])]

/-- The value `{user: {name: "Ann", city: "Oslo"}}`. -/
def userData : JSVal :=
  .obj [("user".toList,
    .obj [("name".toList, .str "Ann".toList), ("city".toList, .str "Oslo".toList)])]

/-- The template `{has title <h1>{. title}</h1>}`. -/
def titleTemplate : Str := "\x7bhas title <h1>\x7b. title\x7d</h1>\x7d".toList

/-- The code of the body `<h1>{. title}</h1>`. -/
def titleBody : Code :=
  [.pushLit "<h1>".toList, .pushResolve "title".toList, .pushLit "</h1>".toList]

/-- The template `{each pages {. title} }`. -/
def pagesTemplate : Str := "\x7beach pages \x7b. title\x7d \x7d".toList

/-- The code of the body `{. title} `. -/
def pagesBody : Code := [.pushResolve "title".toList, .pushLit " ".toList]

/-- The value `{"\\a": [1, 2]}`, whose only key is the two characters
backslash, `a`. -/
def backslashArrayData : JSVal := .obj [(['\\', 'a'], .arr [.num 1, .num 2])]

/-- The value `{"\\a": 1}`, whose only key is the two characters backslash,
`a`. -/
def backslashOneData : JSVal := .obj [(['\\', 'a'], .num 1)]

/-! ## The `literal` macro (src/macro.js, lines 75-97) -/

/-- The macro `literal` of `src/macro.js`: one `push` of the escaped source
text of the tree (`rejoin`), whatever the tree holds; `transform` is not
called. The file takes its `helper` from the module `./helper`, which is
not among the sources: the function `helper.escapeJS` the macro calls is
the parameter `escapeJS`. -/
def literalMacro (escapeJS : Str → Str) : Macro :=
  fun tree _ => .ok [.pushLit (escapeJS (rejoin tree))]

/-- A caller's macro table whose only own property is `literal`, built on
the given `escapeJS`. -/
def literalOnly (escapeJS : Str → Str) (name : Str) : Option Macro :=
  if name = "literal".toList then some (literalMacro escapeJS) else none

/-- The array a parser state builds at nesting depth 0: the bottom of the
stack, or `current` when the stack is empty. -/
def bottomFrame : List Node → List (List Node) → List Node
  | current, [] => current
  | _, frame :: below => bottomFrame frame below

/-! ## Shape of the parse tree -/

/-- A tree item is a string. -/
def Node.isText : Node → Bool
  | .text _ => true
  | .group _ => false

/-- A tree item is a nested array. -/
def Node.isGroup : Node → Bool
  | .text _ => false
  | .group _ => true

mutual
/-- The groups nested in the items of a group, at any depth. -/
def nestedGroups : List Node → List (List Node)
  | [] => []
  | n :: rest => nodeGroups n ++ nestedGroups rest
/-- The group an item is, if any, and the groups nested in it. -/
def nodeGroups : Node → List (List Node)
  | .text _ => []
  | .group cs => cs :: nestedGroups cs
end

/-- The shape the claim states for one group: an odd number of children,
a Text child at every even position and a Group at every odd position. -/
def OddAlternating (g : List Node) : Prop :=
  g.length % 2 = 1 ∧
    ∀ (i : Nat) (n : Node), g[i]? = some n →
      (i % 2 = 0 → n.isText = true) ∧ (i % 2 = 1 → n.isGroup = true)

mutual
/-- The items from a Text position on: a Text, then `shapeTail`. -/
def shapeList : List Node → Bool
  | [] => false
  | n :: rest => n.isText && shapeTail rest
/-- The items from a Group position on: nothing, or a Group of the right
shape, then `shapeList`. -/
def shapeTail : List Node → Bool
  | [] => true
  | n :: rest => groupItem n && shapeList rest
/-- The item is a Group whose items have the right shape. -/
def groupItem : Node → Bool
  | .text _ => false
  | .group cs => shapeList cs
end

/-! ## Literal text -/

/-- The text `helper.escapeJS` puts in place of one character. -/
def escChar (ch : Char) : Str :=
  if ch = '"' then ['\\', '"']
  else if ch = '\'' then ['\\', '\'']
  else if ch = Char.ofNat 10 then ['\\', 'n']
  else [ch]

/-! ## `resolve` for any property access -/

/-- What `resolve` uses of the JavaScript values it walks through: the
value `undefined`, truthiness, and the property access `obj[key]` as the
host evaluates it (own and inherited properties alike; an access can
throw). -/
structure Access (V : Type) where
  undefined : V
  truthy : V → Bool
  get : V → Str → Except JsError V

/-- The `while` loop of `resolve` over the values of an `Access`: returns
the final `obj` and the `parts` that are left. -/
def resolveLoopWith {V : Type} (A : Access V) : V → List Str → Except JsError (V × List Str)
  | obj, [] => .ok (obj, [])
  | obj, part :: rest =>
    match A.get obj part with
    | .error e => .error e
    | .ok v => if A.truthy v then resolveLoopWith A v rest else .ok (obj, part :: rest)

/-- The function `resolve(path)` over the values of an `Access`, with the
free variable `data` of the source made a parameter. -/
def resolveWith {V : Type} (A : Access V) (data : V) (path : Str) : Except JsError V :=
  if path = [] ∨ path = ['.'] then .ok data
  else
    match resolveLoopWith A data (splitDot path) with
    | .error e => .error e
    | .ok (obj, parts) => if parts.length > 0 then .ok A.undefined else .ok obj

/-- The reference definition of segment lookup over the values of an
`Access`, after the specification: the segments are looked up one after
another; the value reached is returned if every lookup yields a truthy
value, `undefined` as soon as a lookup yields a missing (`undefined`) or
falsy value. -/
def lookupSegmentsWith {V : Type} (A : Access V) : V → List Str → Except JsError V
  | v, [] => .ok v
  | v, seg :: rest =>
    match A.get v seg with
    | .error e => .error e
    | .ok w => if A.truthy w then lookupSegmentsWith A w rest else .ok A.undefined

/-- The reference definition of `resolve` over the values of an `Access`,
after the specification: the empty path and `.` denote the data root; every
other path is split on `.` and looked up segment by segment. -/
def resolveSpecWith {V : Type} (A : Access V) (data : V) (path : Str) : Except JsError V :=
  if path = [] ∨ path = ['.'] then .ok data else lookupSegmentsWith A data (splitDot path)

/-- The property access of the JSON-like data values. -/
def jsonAccess : Access JSVal := ⟨.undefined, truthy, getProp⟩

/-! # Theorems -/

/-! ## The parser -/

theorem parseLoop_depth (r : Str) : ∀ st : PState,
    match parseLoop st r with
    | .ok st1 => scanDepth st.stack.length r = some st1.stack.length
    | .error e => scanDepth st.stack.length r = none ∧ e = JsError.typeError := by
  induction r with
  | nil => intro st; simp [parseLoop, scanDepth]
  | cons ch rest ih =>
    intro st
    simp only [parseLoop, parseStep, scanDepth]
    by_cases h1 : ch = '{'
    · simp only [h1, if_true]
      exact ih ⟨[.text []], st.current :: st.stack⟩
    · simp only [h1, if_false]
      by_cases h2 : ch = '}'
      · simp only [h2, if_true]
        cases hs : st.stack with
        | nil => simp
        | cons parent more =>
          simp only [List.length_cons]
          exact ih ⟨parent ++ [.group st.current, .text []], more⟩
      · simp only [h2, if_false]
        exact ih ⟨appendChar st.current ch, st.stack⟩

theorem scanDepth_iff (r : Str) : ∀ d k : Nat,
    scanDepth d r = some k ↔
      (∀ n, n ≤ r.length → (r.take n).count '}' ≤ d + (r.take n).count '{') ∧
        d + r.count '{' = k + r.count '}' := by
  induction r with
  | nil => intro d k; simp [scanDepth]
  | cons ch rest ih =>
    intro d k
    have hsplit : ∀ (P : Str → Prop),
        (∀ n, n ≤ (ch :: rest).length → P ((ch :: rest).take n)) ↔
          (P [] ∧ ∀ m, m ≤ rest.length → P (ch :: rest.take m)) := by
      intro P
      constructor
      · intro h
        refine ⟨h 0 (Nat.zero_le _), fun m hm => ?_⟩
        have := h (m + 1) (by simpa using hm)
        simpa using this
      · rintro ⟨h0, hs⟩ n hn
        cases n with
        | zero => simpa using h0
        | succ m => simpa using hs m (by simpa using hn)
    rw [hsplit (fun l => l.count '}' ≤ d + l.count '{')]
    simp only [scanDepth]
    by_cases h1 : ch = '{'
    · subst h1
      simp only [if_true, ih, List.count_cons_self, List.count_nil]
      have hne : ('}' : Char) ≠ '{' := by decide
      simp only [List.count_cons_of_ne hne]
      constructor
      · rintro ⟨h, he⟩
        exact ⟨⟨Nat.zero_le _, fun m hm => by have := h m hm; omega⟩, by omega⟩
      · rintro ⟨⟨_, h⟩, he⟩
        exact ⟨fun m hm => by have := h m hm; omega, by omega⟩
    · simp only [h1, if_false]
      by_cases h2 : ch = '}'
      · subst h2
        simp only [if_true, List.count_cons_self, List.count_nil]
        have hne : ('{' : Char) ≠ '}' := by decide
        simp only [List.count_cons_of_ne hne]
        cases d with
        | zero =>
          constructor
          · intro h; cases h
          · rintro ⟨⟨_, h⟩, _⟩
            have := h 0 (Nat.zero_le _)
            simp at this
        | succ d1 =>
          simp only [ih]
          constructor
          · rintro ⟨h, he⟩
            exact ⟨⟨Nat.zero_le _, fun m hm => by have := h m hm; omega⟩, by omega⟩
          · rintro ⟨⟨_, h⟩, he⟩
            exact ⟨fun m hm => by have := h m hm; omega, by omega⟩
      · simp only [h2, if_false, ih]
        have hn1 : ('{' : Char) ≠ ch := fun h => h1 h.symm
        have hn2 : ('}' : Char) ≠ ch := fun h => h2 h.symm
        simp only [List.count_cons_of_ne hn1, List.count_cons_of_ne hn2, List.count_nil]
        constructor
        · rintro ⟨h, he⟩
          exact ⟨⟨Nat.zero_le _, h⟩, he⟩
        · rintro ⟨⟨_, h⟩, he⟩
          exact ⟨h, he⟩


theorem rejoin_append (a b : List Node) : rejoin (a ++ b) = rejoin a ++ rejoin b := by
  induction a with
  | nil => simp [rejoin]
  | cons n rest ih => simp [rejoin, ih]

theorem appendChar_snoc (init : List Node) (s : Str) (ch : Char) :
    appendChar (init ++ [.text s]) ch = init ++ [.text (s ++ [ch])] := by
  induction init with
  | nil => simp [appendChar]
  | cons n rest ih =>
    cases hr : rest ++ [Node.text s] with
    | nil => simp at hr
    | cons m more =>
      simp only [List.cons_append, hr, appendChar]
      rw [← hr, ih]

theorem parseStep_unparse (st st1 : PState) (ch : Char)
    (hlast : ∃ init s, st.current = init ++ [.text s])
    (h : parseStep st ch = .ok st1) :
    unparse st1 = unparse st ++ [ch] ∧ ∃ init s, st1.current = init ++ [.text s] := by
  obtain ⟨init, s, hcur⟩ := hlast
  unfold parseStep at h
  by_cases h1 : ch = '{'
  · simp only [h1, if_true, Except.ok.injEq] at h
    subst h
    refine ⟨?_, [], [], rfl⟩
    simp [unparse, openPrefix, rejoin, rejoinItem, h1]
  · simp only [h1, if_false] at h
    by_cases h2 : ch = '}'
    · simp only [h2, if_true] at h
      cases hs : st.stack with
      | nil => simp [hs] at h
      | cons parent more =>
        simp only [hs, Except.ok.injEq] at h
        subst h
        refine ⟨?_, parent ++ [.group st.current], [], by simp⟩
        simp [unparse, openPrefix, rejoin, rejoinItem, rejoin_append, hs, h2]
    · simp only [h2, if_false, Except.ok.injEq] at h
      subst h
      refine ⟨?_, init, s ++ [ch], by simp [hcur, appendChar_snoc]⟩
      simp [unparse, hcur, appendChar_snoc, rejoin_append, rejoin, rejoinItem]

theorem parseLoop_unparse (r : Str) : ∀ st st1 : PState,
    (∃ init s, st.current = init ++ [.text s]) →
    parseLoop st r = .ok st1 → unparse st1 = unparse st ++ r := by
  induction r with
  | nil => intro st st1 _ h; simp [parseLoop] at h; simp [h]
  | cons ch rest ih =>
    intro st st1 hlast h
    simp only [parseLoop] at h
    cases hstep : parseStep st ch with
    | error e => simp [hstep] at h
    | ok st2 =>
      simp only [hstep] at h
      obtain ⟨hu, hl⟩ := parseStep_unparse st st2 ch hlast hstep
      rw [ih st2 st1 hl h, hu]
      simp

theorem balanced_iff_scanDepth (s : Str) : Balanced s ↔ scanDepth 0 s = some 0 := by
  rw [scanDepth_iff]
  simp [Balanced]

theorem parse_ok_iff_scan (s : Str) : (∃ t, parse s = .ok t) ↔ scanDepth 0 s = some 0 := by
  have hd := parseLoop_depth s ⟨[.text []], []⟩
  unfold parse
  cases hp : parseLoop ⟨[.text []], []⟩ s with
  | error e =>
    rw [hp] at hd
    simp only [List.length_nil] at hd
    simp [hd.1]
  | ok st =>
    rw [hp] at hd
    simp only [List.length_nil] at hd
    rw [hd]
    by_cases hz : st.stack.length = 0
    · simp [hz]
    · simp [hz]

theorem parse_ok_rejoin (s : Str) (t : List Node) (h : parse s = .ok t) : rejoin t = s := by
  unfold parse at h
  cases hp : parseLoop ⟨[.text []], []⟩ s with
  | error e => simp [hp] at h
  | ok st =>
    simp only [hp] at h
    by_cases hz : st.stack.length = 0
    · simp only [hz, ne_eq, not_true_eq_false, if_false, Except.ok.injEq] at h
      have hu := parseLoop_unparse s ⟨[.text []], []⟩ st ⟨[], [], rfl⟩ hp
      have hnil : st.stack = [] := List.length_eq_zero.mp hz
      simp [unparse, hnil, openPrefix, rejoin, rejoinItem, h] at hu
      exact hu
    · simp [hz] at h

theorem parse_error_kinds (s : Str) (e : JsError) (h : parse s = .error e) :
    e = .typeError ∨ e = .error "Unmatched brace".toList := by
  have hd := parseLoop_depth s ⟨[.text []], []⟩
  unfold parse at h
  cases hp : parseLoop ⟨[.text []], []⟩ s with
  | error e1 =>
    rw [hp] at hd
    simp only [hp, Except.error.injEq] at h
    exact Or.inl (h ▸ hd.2)
  | ok st =>
    simp only [hp] at h
    by_cases hz : st.stack.length = 0
    · simp [hz] at h
    · simp only [ne_eq, hz, not_false_eq_true, if_true, Except.error.injEq] at h
      exact Or.inr h.symm

/-- C1. Round trip: for every source whose braces balance, `parse` returns a
tree and `rejoin` of that tree is the source itself. -/
theorem parse_rejoin_roundtrip (s : Str) (h : Balanced s) :
    ∃ t, parse s = .ok t ∧ rejoin t = s := by
  obtain ⟨t, ht⟩ := (parse_ok_iff_scan s).mpr ((balanced_iff_scanDepth s).mp h)
  exact ⟨t, ht, parse_ok_rejoin s t ht⟩

/-- Witness of C1 at the source `{a {b} c}`. -/
theorem parse_rejoin_roundtrip_witness :
    Balanced "\x7ba \x7bb\x7d c\x7d".toList ∧
      ∃ t, parse "\x7ba \x7bb\x7d c\x7d".toList = .ok t ∧ rejoin t = "\x7ba \x7bb\x7d c\x7d".toList :=
  ⟨by decide, parse_rejoin_roundtrip "\x7ba \x7bb\x7d c\x7d".toList (by decide)⟩

/-- C2. `parse` returns a tree exactly when the braces of the source
balance; on every other source it throws. -/
theorem parse_ok_iff_balanced (s : Str) :
    ((∃ t, parse s = .ok t) ↔ Balanced s) ∧ (Balanced s ∨ ∃ e, parse s = .error e) := by
  have hiff : (∃ t, parse s = .ok t) ↔ Balanced s := by
    rw [balanced_iff_scanDepth]; exact parse_ok_iff_scan s
  refine ⟨hiff, ?_⟩
  cases hp : parse s with
  | ok t => exact Or.inl (hiff.mp ⟨t, hp⟩)
  | error e => exact Or.inr ⟨e, rfl⟩

/-- C3, at the failing input. On `a}` the closing brace pops an empty stack
and `parent.push` throws a `TypeError`, not the `Unmatched brace` error; on
`{a` the error is `Unmatched brace`. -/
theorem parse_unmatched_close_typeError :
    parse "a\x7d".toList = .error .typeError ∧
      parse "\x7ba".toList = .error (.error "Unmatched brace".toList) := by
  constructor <;> rfl

/-! ## Paths and `resolve` -/

theorem truthy_ne_nullish (v : JSVal) (h : truthy v = true) :
    v ≠ .undefined ∧ v ≠ .null := by
  cases v <;> simp [truthy] at h ⊢

theorem getProp_of_ne (v : JSVal) (k : Str) (h1 : v ≠ .undefined) (h2 : v ≠ .null) :
    getProp v k = .ok (ownProp v k) := by
  cases v <;> simp [getProp] at h1 h2 ⊢

theorem resolveLoop_spec (parts : List Str) : ∀ v : JSVal, v ≠ .undefined → v ≠ .null →
    ∃ x rest, resolveLoop v parts = .ok (x, rest) ∧
      (if rest.length > 0 then JSVal.undefined else x) = lookupSegments v parts ∧
      (rest = [] → parts ≠ [] → truthy x = true) := by
  induction parts with
  | nil => intro v _ _; exact ⟨v, [], by simp [resolveLoop], by simp [lookupSegments], by simp⟩
  | cons part rest ih =>
    intro v h1 h2
    simp only [resolveLoop, getProp_of_ne v part h1 h2, lookupSegments]
    by_cases ht : truthy (ownProp v part) = true
    · simp only [ht, if_true]
      obtain ⟨hn1, hn2⟩ := truthy_ne_nullish _ ht
      obtain ⟨x, r, hx, hs, htr⟩ := ih (ownProp v part) hn1 hn2
      refine ⟨x, r, hx, hs, fun hr _ => ?_⟩
      cases hrest : rest with
      | nil =>
        subst hrest
        simp [resolveLoop] at hx
        rw [← hx.1]; exact ht
      | cons a b => exact htr hr (by simp [hrest])
    · simp only [ht]
      exact ⟨v, part :: rest, by simp, by simp, by simp⟩

/-- Falsy-is-absent: on truthy data `resolve` returns a value, and that
value is `undefined` or truthy. -/
theorem resolve_truthy_data (d : JSVal) (path : Str) (hd : truthy d = true) :
    ∃ v, resolve d path = .ok v ∧ (v = .undefined ∨ truthy v = true) := by
  obtain ⟨h1, h2⟩ := truthy_ne_nullish d hd
  unfold resolve
  by_cases hroot : path = [] ∨ path = ['.']
  · exact ⟨d, by simp [hroot], Or.inr hd⟩
  · simp only [hroot, if_false]
    obtain ⟨x, rest, hx, _, htr⟩ := resolveLoop_spec (splitDot path) d h1 h2
    rw [hx]
    cases rest with
    | nil => exact ⟨x, by simp, Or.inr (htr rfl (by simp [splitDot]))⟩
    | cons a b => exact ⟨.undefined, by simp, Or.inl rfl⟩

/-- C8. `addToPath` implements the composition rule `addToPathSpec` for all
strings, and takes the four values the specification lists. -/
theorem addToPath_eq_addToPathSpec (base segment : Str) :
    addToPath base segment = addToPathSpec base segment ∧
    addToPath [] [] = ".".toList ∧
    addToPath "foo".toList ".".toList = "foo".toList ∧
    addToPath "foo".toList "bar".toList = "foo.bar".toList ∧
    addToPath [] "bar".toList = "bar".toList := by
  refine ⟨?_, rfl, rfl, rfl, rfl⟩
  unfold addToPath addToPathSpec
  by_cases hb : base = [] <;> by_cases hs : segment = [] <;>
    by_cases hd : segment = ['.'] <;> simp [hb, hs, hd]

/-! ## Generated code and its execution -/

theorem decodeLit_plain (p : Str)
    (h : ∀ ch ∈ p, ch ≠ '\\' ∧ ch ≠ '"' ∧ ch ≠ Char.ofNat 10 ∧ ch ≠ Char.ofNat 13) :
    decodeLit p = some p := by
  induction p with
  | nil => simp [decodeLit]
  | cons ch rest ih =>
    have hc := h ch (by simp)
    have hr := ih (fun x hx => h x (by simp [hx]))
    unfold decodeLit
    simp [hc.1, hc.2.1, hc.2.2.1, hc.2.2.2, hr]

theorem parseArg_token (tree : List Node) (p : Str) (tree1 : List Node)
    (h : parseArg tree = .ok (p, tree1)) : ∀ ch ∈ p, isSpace ch = false := by
  cases tree with
  | nil => simp [parseArg] at h
  | cons n rest =>
    cases n with
    | group g => simp [parseArg] at h
    | text s =>
      simp only [parseArg, Except.ok.injEq, Prod.mk.injEq] at h
      intro ch hch
      rw [← h.1] at hch
      have := List.mem_takeWhile_imp hch
      simpa using this

theorem decodeLit_token (tree : List Node) (p : Str) (tree1 : List Node)
    (h : parsePath tree = .ok (p, tree1))
    (hplain : ∀ ch ∈ p, ch ≠ '"' ∧ ch ≠ '\\') : decodeLit p = some p := by
  apply decodeLit_plain
  intro ch hch
  have hs := parseArg_token tree p tree1 h ch hch
  refine ⟨(hplain ch hch).2, (hplain ch hch).1, ?_, ?_⟩
  · intro he; rw [he] at hs; exact absurd hs (by decide)
  · intro he; rw [he] at hs; exact absurd hs (by decide)

theorem exec_pushResolve (d : JSVal) (item : Option Str) (lit p c : Str)
    (hl : decodeLit lit = some p) :
    execList d item [.pushResolve lit] c =
      match resolve d (addToPath c p) with
      | .error e => .error e
      | .ok v => emits c (JSVal.joinElem v) := by
  simp only [execList, exec, hl]
  cases resolve d (addToPath c p) with
  | error e => rfl
  | ok v =>
    cases hj : JSVal.joinElem v with
    | error e => simp [emits, hj]
    | ok s => simp [emits, hj]

/-- C9, as amended. For every argument token `p` without double quote and
backslash, the `.` macro generates `__out.push(resolve(addToPath(path,
"p")))`, whose execution at current path `c` appends the text of
`resolve(d, addToPath(c, p))` as `join` renders it, which is the empty
string for `undefined`. -/
theorem dotMacro_emits_resolved (tree : List Node) (recurse : Transform) (p : Str)
    (tree1 : List Node) (hp : parsePath tree = .ok (p, tree1))
    (hplain : ∀ ch ∈ p, ch ≠ '"' ∧ ch ≠ '\\') :
    dotMacro tree recurse = .ok [.pushResolve p] ∧
    (∀ (d : JSVal) (item : Option Str) (c : Str),
      execList d item [.pushResolve p] c =
        match resolve d (addToPath c p) with
        | .error e => .error e
        | .ok v => emits c (JSVal.joinElem v)) ∧
    JSVal.joinElem .undefined = .ok [] := by
  refine ⟨by simp [dotMacro, hp], fun d item c => ?_, rfl⟩
  exact exec_pushResolve d item p p c (decodeLit_token tree p tree1 hp hplain)

/-- Witness of the amended C9 at the token `count`: `{. count}` renders the
empty string against `{count:0}` and `7` against `{count:7}`. -/
theorem dotMacro_emits_resolved_witness :
    parsePath [.text "count".toList] = .ok ("count".toList, [.text []]) ∧
    (∀ ch ∈ "count".toList, ch ≠ '"' ∧ ch ≠ '\\') ∧
    render 2 noMacros "\x7b. count\x7d".toList (.obj [("count".toList, .num 0)]) = .ok [] ∧
    render 2 noMacros "\x7b. count\x7d".toList (.obj [("count".toList, .num 7)]) = .ok "7".toList ∧
    (dotMacro [.text "count".toList] (transform noMacros 0) = .ok [.pushResolve "count".toList] ∧
      (∀ (d : JSVal) (item : Option Str) (c : Str),
        execList d item [.pushResolve "count".toList] c =
          match resolve d (addToPath c "count".toList) with
          | .error e => .error e
          | .ok v => emits c (JSVal.joinElem v)) ∧
      JSVal.joinElem .undefined = .ok []) :=
  ⟨rfl, by decide, rfl, rfl,
    dotMacro_emits_resolved [.text "count".toList] (transform noMacros 0) "count".toList
      [.text []] rfl (by decide)⟩

/-- C9, counterexample. The argument token backslash-`a` holds no whitespace
and no brace; the value at that path is `"RIGHT"`, but the generated
literal `"\a"` denotes the path `a`, and the template renders `"WRONG"`. -/
theorem dotMacro_backslash_counterexample :
    (∀ ch ∈ ['\\', 'a'], isSpace ch = false ∧ ch ≠ '{' ∧ ch ≠ '}') ∧
    resolve backslashData (addToPath [] ['\\', 'a']) = .ok (.str "RIGHT".toList) ∧
    JSVal.joinElem (.str "RIGHT".toList) = .ok "RIGHT".toList ∧
    render 2 noMacros ("\x7b. ".toList ++ ['\\', 'a'] ++ "\x7d".toList) backslashData =
      .ok "WRONG".toList := by
  refine ⟨by decide, rfl, rfl, rfl⟩

theorem execList_singleton (d : JSVal) (item : Option Str) (s : Stmt) (c : Str) :
    execList d item [s] c = exec d item s c := by
  simp only [execList]
  cases exec d item s c with
  | error e => rfl
  | ok r => simp

theorem eachM_const (f : Str → Str → Except JsError (Str × Str))
    (g : Str → Except JsError Str) (q : Str) (hf : ∀ k, f k q = emits q (g k)) :
    ∀ keys : List Str, eachM f keys q = emits q (concatRuns (keys.map g)) := by
  intro keys
  induction keys with
  | nil => simp [eachM, concatRuns, emits]
  | cons k ks ih =>
    simp only [eachM, hf k, List.map_cons, concatRuns]
    cases g k with
    | error e => simp [emits]
    | ok o1 =>
      simp only [emits, ih]
      cases concatRuns (ks.map g) with
      | error e => rfl
      | ok o2 => rfl

theorem exec_keepPath (d : JSVal) (item : Option Str) (body : Code) (c : Str) :
    exec d item (.keepPath body) c = emits c (outputOf (execList d item body c)) := by
  simp only [exec]
  cases execList d item body c with
  | error e => rfl
  | ok r => rfl

theorem exec_setPath_cons (d : JSVal) (item : Option Str) (lit p : Str) (rest : Code)
    (c : Str) (hl : decodeLit lit = some p) :
    execList d item (.setPath lit :: rest) c = execList d item rest (addToPath c p) := by
  simp only [execList, exec, hl]
  cases execList d item rest (addToPath c p) with
  | error e => rfl
  | ok r => simp

theorem exec_eachResolved (d : JSVal) (item : Option Str) (cb : Code) (q : Str)
    (v : JSVal) (keys : List Str)
    (hr : resolve d q = .ok v) (hk : eachKeys v = .ok keys) :
    exec d item (.eachResolved cb) q =
      eachM (fun k p => execList d (some k) cb p) keys q := by
  simp only [exec, each, hr, hk]

theorem exec_each_callback (d : JSVal) (k : Str) (body : Code) (q : Str) :
    execList d (some k) (keepPath (.setPathItem :: body)) q =
      emits q (outputOf (execList d (some k) body (addToPath q k))) := by
  simp only [keepPath, execList_singleton, exec, execList]
  cases execList d (some k) body (addToPath q k) with
  | error e => simp [emits, outputOf]
  | ok r => simp [emits, outputOf]

theorem exec_each_code (d : JSVal) (item : Option Str) (lit p c : Str) (body : Code)
    (v : JSVal) (keys : List Str)
    (hl : decodeLit lit = some p)
    (hr : resolve d (addToPath c p) = .ok v)
    (hk : eachKeys v = .ok keys) :
    execList d item
        (keepPath [.setPath lit, .eachResolved (keepPath (.setPathItem :: body))]) c =
      emits c (concatRuns (keys.map (fun k =>
        outputOf (execList d (some k) body (addToPath (addToPath c p) k))))) := by
  have hcb := eachM_const
    (fun k q => execList d (some k) (keepPath (.setPathItem :: body)) q)
    (fun k => outputOf (execList d (some k) body (addToPath (addToPath c p) k)))
    (addToPath c p) (fun k => exec_each_callback d k body (addToPath c p)) keys
  rw [keepPath, execList_singleton, exec_keepPath, exec_setPath_cons d item lit p _ c hl,
    execList_singleton,
    exec_eachResolved d item _ (addToPath c p) v keys hr hk, hcb]
  cases concatRuns (keys.map (fun k =>
      outputOf (execList d (some k) body (addToPath (addToPath c p) k)))) with
  | error e => rfl
  | ok o => rfl

theorem eachMacro_code (tree : List Node) (recurse : Transform) (lit : Str)
    (tree1 : List Node) (body : Code)
    (hp : parsePath tree = .ok (lit, tree1))
    (hb : transformTree tree1 recurse = .ok body) :
    eachMacro tree recurse =
      .ok (keepPath [.setPath lit, .eachResolved (keepPath (.setPathItem :: body))]) := by
  simp [eachMacro, hp, hb]


/-! ## `each` over an object -/

theorem splitDotAux_plain (k : Str) (h : '.' ∉ k) : splitDotAux k = (k, []) := by
  induction k with
  | nil => rfl
  | cons ch rest ih =>
    have hne : ch ≠ '.' := fun he => h (by simp [he])
    have hr := ih (fun hm => h (by simp [hm]))
    simp [splitDotAux, hne, hr]

theorem splitDot_plain (k : Str) (h : '.' ∉ k) : splitDot k = [k] := by
  simp [splitDot, splitDotAux_plain k h]

theorem splitDotAux_append (a b : Str) :
    splitDotAux (a ++ '.' :: b) =
      ((splitDotAux a).1, (splitDotAux a).2 ++ splitDot b) := by
  induction a with
  | nil => simp [splitDotAux, splitDot]
  | cons ch rest ih =>
    by_cases hc : ch = '.'
    · simp [splitDotAux, hc, ih]
    · simp [splitDotAux, hc, ih]

theorem splitDot_append (a b : Str) :
    splitDot (a ++ '.' :: b) = splitDot a ++ splitDot b := by
  simp [splitDot, splitDotAux_append]

theorem resolveLoop_append (as bs : List Str) : ∀ (d x : JSVal),
    resolveLoop d as = .ok (x, []) → resolveLoop d (as ++ bs) = resolveLoop x bs := by
  induction as with
  | nil =>
    intro d x h
    simp only [resolveLoop, Except.ok.injEq, Prod.mk.injEq, and_true] at h
    simp [h]
  | cons part rest ih =>
    intro d x h
    simp only [resolveLoop, List.cons_append] at h ⊢
    cases hg : getProp d part with
    | error e => simp [hg] at h
    | ok v =>
      simp only [hg] at h ⊢
      by_cases ht : truthy v = true
      · simp only [ht, if_true] at h ⊢
        exact ih v x h
      · simp [ht] at h

theorem lookupKey_of_mem (k : Str) (v : JSVal) : ∀ props : List (Str × JSVal),
    (props.map Prod.fst).Nodup → (k, v) ∈ props → lookupKey k props = some v := by
  intro props
  induction props with
  | nil => intro _ h; simp at h
  | cons kv rest ih =>
    intro hnd hmem
    obtain ⟨k1, v1⟩ := kv
    simp only [List.map_cons, List.nodup_cons, List.mem_map, not_exists, not_and] at hnd
    simp only [lookupKey]
    rcases List.mem_cons.mp hmem with heq | hin
    · simp only [Prod.mk.injEq] at heq
      simp [heq.1, heq.2]
    · have hne : k1 ≠ k := fun he => hnd.1 (k, v) hin (by simp [he])
      simp only [hne, if_false]
      exact ih hnd.2 hin

theorem resolve_entry (d : JSVal) (q k : Str) (props : List (Str × JSVal)) (v : JSVal)
    (hr : resolve d q = .ok (.obj props)) (hq : q ≠ ['.'])
    (hk : lookupKey k props = some v) (hv : truthy v = true)
    (hne : k ≠ []) (hdot : '.' ∉ k) :
    resolve d (addToPath q k) = .ok v := by
  have hkd : k ≠ ['.'] := fun he => hdot (by simp [he])
  have hstep : resolveLoop (.obj props) [k] = .ok (v, []) := by
    simp [resolveLoop, getProp, ownProp, hk, hv]
  by_cases hq0 : q = []
  · subst hq0
    have hd : d = .obj props := by simpa [resolve] using hr
    have hp : addToPath [] k = k := by simp [addToPath, hne, hkd]
    rw [hp]
    simp only [resolve, hne, hkd, or_self, if_false, splitDot_plain k hdot, hd, hstep]
    simp
  · have hp : addToPath q k = q ++ '.' :: k := by simp [addToPath, hne, hkd, hq0]
    rw [hp]
    simp only [resolve, hq0, hq, or_self, if_false] at hr
    have h1 : q ++ '.' :: k ≠ [] := by simp
    have h2 : q ++ '.' :: k ≠ ['.'] := by
      intro he
      have := congrArg List.length he
      cases q with
      | nil => exact hq0 rfl
      | cons a b => simp at this
    simp only [resolve, h1, h2, or_self, if_false, splitDot_append, splitDot_plain k hdot]
    cases hl : resolveLoop d (splitDot q) with
    | error e => simp [hl] at hr
    | ok r =>
      obtain ⟨x, parts⟩ := r
      simp only [hl] at hr
      cases parts with
      | cons a b => simp at hr
      | nil =>
        simp only [List.length_nil, gt_iff_lt, lt_self_iff_false, if_false,
          Except.ok.injEq] at hr
        rw [resolveLoop_append (splitDot q) [k] d x hl, hr, hstep]
        simp

theorem addToPath_key_nil (q k : Str) (hne : k ≠ []) (hkd : k ≠ ['.']) :
    addToPath (addToPath q k) [] = addToPath q k := by
  have hpne : addToPath q k ≠ [] := by
    by_cases hq0 : q = [] <;> simp [addToPath, hne, hkd, hq0]
  generalize addToPath q k = r at hpne
  simp [addToPath, hpne]

/-- C5, as amended. `each` over an object without an own property
`hasOwnProperty`: the code of the `each` macro, run at current path `c`,
leaves the path at `c` and appends the concatenation, over the keys `k` in
enumeration order, of the output of the body's code run with current path
`addToPath(q, k)`, `q = addToPath(c, p)` the path of the object. At a key
that is not empty and holds no `.`, with truthy value `v`, and with `q`
other than `.`, the code of the group `.` with no argument appends the text
of `v`. -/
theorem eachMacro_object (tree : List Node) (recurse : Transform) (lit : Str)
    (tree1 : List Node) (body : Code) (d : JSVal) (item : Option Str) (c p : Str)
    (props : List (Str × JSVal))
    (hp : parsePath tree = .ok (lit, tree1))
    (hb : transformTree tree1 recurse = .ok body)
    (hl : decodeLit lit = some p)
    (hr : resolve d (addToPath c p) = .ok (.obj props))
    (hnd : (props.map Prod.fst).Nodup)
    (hown : lookupKey "hasOwnProperty".toList props = none) :
    (∃ code, eachMacro tree recurse = .ok code ∧
      execList d item code c =
        emits c (concatRuns ((props.map Prod.fst).map (fun k =>
          outputOf (execList d (some k) body (addToPath (addToPath c p) k)))))) ∧
    transform noMacros 1 [.text ".".toList] = .ok [.pushResolve []] ∧
    ∀ k v, (k, v) ∈ props → k ≠ [] → '.' ∉ k → truthy v = true →
      addToPath c p ≠ ['.'] →
      execList d (some k) [.pushResolve []] (addToPath (addToPath c p) k) =
        emits (addToPath (addToPath c p) k) (JSVal.joinElem v) := by
  refine ⟨⟨_, eachMacro_code tree recurse lit tree1 body hp hb, ?_⟩, rfl, ?_⟩
  · apply exec_each_code d item lit p c body (.obj props) (props.map Prod.fst) hl hr
    cases props with
    | nil => simp [eachKeys, truthy]
    | cons kv rest =>
      simp [eachKeys, truthy]
      exact hown
  · intro k v hmem hne hdot hv hq
    have hk := lookupKey_of_mem k v props hnd hmem
    have hres := resolve_entry d (addToPath c p) k props v hr hq hk hv hne hdot
    have hkd : k ≠ ['.'] := fun he => hdot (by simp [he])
    have hself : addToPath (addToPath (addToPath c p) k) [] = addToPath (addToPath c p) k :=
      addToPath_key_nil (addToPath c p) k hne hkd
    rw [exec_pushResolve d (some k) [] [] _ rfl, hself, hres]

/-- Witness of the amended C5: `{each user {.} }` renders `Ann Oslo `
against `{user:{name:"Ann",city:"Oslo"}}`, and the theorem at the group
`each user {.} `. -/
theorem eachMacro_object_witness :
    render 3 noMacros "\x7beach user \x7b.\x7d \x7d".toList userData = .ok "Ann Oslo ".toList ∧
    ((∃ code, eachMacro [.text "user ".toList, .group [.text ".".toList], .text " ".toList]
          (transform noMacros 1) = .ok code ∧
        execList userData none code [] =
          emits [] (concatRuns ((["name".toList, "city".toList]).map (fun k =>
            outputOf (execList userData (some k) [.pushResolve [], .pushLit " ".toList]
              (addToPath (addToPath [] "user".toList) k)))))) ∧
      transform noMacros 1 [.text ".".toList] = .ok [.pushResolve []] ∧
      ∀ k v, (k, v) ∈ [("name".toList, JSVal.str "Ann".toList),
            ("city".toList, JSVal.str "Oslo".toList)] →
        k ≠ [] → '.' ∉ k → truthy v = true →
        addToPath [] "user".toList ≠ ['.'] →
        execList userData (some k) [.pushResolve []]
            (addToPath (addToPath [] "user".toList) k) =
          emits (addToPath (addToPath [] "user".toList) k) (JSVal.joinElem v)) :=
  ⟨rfl,
    eachMacro_object [.text "user ".toList, .group [.text ".".toList], .text " ".toList]
      (transform noMacros 1) "user".toList
      [.text [], .group [.text ".".toList], .text " ".toList]
      [.pushResolve [], .pushLit " ".toList] userData none [] "user".toList
      [("name".toList, .str "Ann".toList), ("city".toList, .str "Oslo".toList)]
      rfl rfl rfl rfl (by decide) rfl⟩

/-- C5, counterexample. In `{foo: {"": "E", ".": "D", "a.b": "X"}}` the
argument `foo` resolves to an object whose three values are truthy, but
`{.}` in the body emits the text of none of them: for the keys `""` and `.`
the path stays `foo` and the object itself is printed, for `a.b` the path
`foo.a.b` resolves to `undefined`. With an empty argument at the root the
path of the object is `.`, the entries get the paths `..k` and nothing is
printed; an own property `hasOwnProperty` makes `each` throw. -/
theorem eachMacro_odd_keys_counterexample :
    resolve oddKeysData (addToPath [] "foo".toList) =
      .ok (.obj [([], .str "E".toList), (".".toList, .str "D".toList),
        ("a.b".toList, .str "X".toList)]) ∧
    truthy (.str "E".toList) = true ∧ truthy (.str "D".toList) = true ∧
    truthy (.str "X".toList) = true ∧
    render 3 noMacros "\x7beach foo \x7b.\x7d\x7d".toList oddKeysData =
      .ok "[object Object][object Object]".toList ∧
    render 3 noMacros "\x7beach foo \x7b.\x7d\x7d".toList
      (.obj [("foo".toList, .obj [("a.b".toList, .str "X".toList)])]) = .ok [] ∧
    addToPath [] [] = ['.'] ∧
    render 3 noMacros "\x7beach \x7b.\x7d\x7d".toList (.obj [("x".toList, .str "s".toList)]) = .ok [] ∧
    render 3 noMacros "\x7beach . \x7b.\x7d\x7d".toList
      (.obj [("hasOwnProperty".toList, .str "s".toList)]) = .error .typeError := by
  refine ⟨rfl, rfl, rfl, rfl, rfl, rfl, rfl, rfl, rfl⟩

/-! ## Macro dispatch -/

theorem transform_dispatch (macros : Str → Option Macro) (depth : Nat) (tree : List Node)
    (name : Str) (tree1 : List Node) (hp : parseArg tree = .ok (name, tree1))
    (hn : name ∉ objectPrototypeKeys) :
    transform macros (depth + 1) tree =
      match macros name with
      | some m => m tree1 (transform macros depth)
      | none =>
        match nativeMacros name with
        | some m => m tree1 (transform macros depth)
        | none => .error (.error ("Not a macro:".toList ++ name)) := by
  simp only [transform, hp, lookupMacro, lookupTable, hn, if_false]
  cases macros name with
  | some m => rfl
  | none =>
    cases nativeMacros name with
    | some m => rfl
    | none => rfl

/-- C10, at the failing input. `valueOf` is a key of neither macro table,
but `macros["valueOf"]` is the function inherited from `Object.prototype`:
it is called as the macro and compiling `{valueOf x}` throws a `TypeError`
instead of `Not a macro:valueOf`. A name that no prototype knows, like
`bogus`, gets the error `Not a macro:bogus`. -/
theorem compile_inherited_name_not_rejected :
    "valueOf".toList ∈ objectPrototypeKeys ∧
    nativeMacros "valueOf".toList = none ∧ noMacros "valueOf".toList = none ∧
    compile 2 noMacros "\x7bvalueOf x\x7d".toList = .error .typeError ∧
    compile 2 noMacros "\x7bbogus x\x7d".toList = .error (.error "Not a macro:bogus".toList) := by
  refine ⟨by decide, rfl, rfl, rfl, rfl⟩

/-! ## Scoped path -/

theorem execList_cons_keepPath (d : JSVal) (item : Option Str) (body rest : Code) (c : Str) :
    execList d item (.keepPath body :: rest) c =
      match outputOf (execList d item body c) with
      | .error e => .error e
      | .ok o1 =>
        match execList d item rest c with
        | .error e => .error e
        | .ok (p2, o2) => .ok (p2, o1 ++ o2) := by
  rw [execList, exec_keepPath]
  cases outputOf (execList d item body c) with
  | error e => rfl
  | ok o1 => rfl

theorem descent_code_shape (tree : List Node) (recurse : Transform) (code : Code)
    (h : arrowMacro tree recurse = .ok code ∨ eachMacro tree recurse = .ok code) :
    ∃ inner, code = [.keepPath inner] := by
  rcases h with h | h
  · unfold arrowMacro at h
    cases hp : parsePath tree with
    | error e => simp [hp] at h
    | ok r =>
      obtain ⟨lit, tree1⟩ := r
      simp only [hp] at h
      cases hb : transformTree tree1 recurse with
      | error e => simp [hb] at h
      | ok body =>
        simp only [hb, Except.ok.injEq] at h
        exact ⟨_, h.symm⟩
  · unfold eachMacro at h
    cases hp : parsePath tree with
    | error e => simp [hp] at h
    | ok r =>
      obtain ⟨lit, tree1⟩ := r
      simp only [hp] at h
      cases hb : transformTree tree1 recurse with
      | error e => simp [hb] at h
      | ok body =>
        simp only [hb, Except.ok.injEq] at h
        exact ⟨_, h.symm⟩

/-- C11. Scoped path. Whatever its body is (however many descents are
nested in it), the code of a `->` or `each` group run at current path `c`
leaves the path at `c`, and the statements that follow the group are run at
current path `c`. -/
theorem descent_restores_path (tree : List Node) (recurse : Transform) (code rest : Code)
    (d : JSVal) (item : Option Str) (c : Str)
    (h : arrowMacro tree recurse = .ok code ∨ eachMacro tree recurse = .ok code) :
    ∃ r, execList d item code c = emits c r ∧
      execList d item (code ++ rest) c =
        match r with
        | .error e => .error e
        | .ok o1 =>
          match execList d item rest c with
          | .error e => .error e
          | .ok (p2, o2) => .ok (p2, o1 ++ o2) := by
  obtain ⟨inner, hc⟩ := descent_code_shape tree recurse code h
  subst hc
  refine ⟨outputOf (execList d item inner c), ?_, ?_⟩
  · rw [execList_singleton, exec_keepPath]
  · rw [List.singleton_append, execList_cons_keepPath]

/-- Witness of C11: `{-> a {-> b {path}}}{path}` renders `a.b` followed by
`.`, and the theorem at the group `-> a {-> b {path}}` followed by the code
of `{path}`. -/
theorem descent_restores_path_witness :
    render 4 noMacros "\x7b-> a \x7b-> b \x7bpath\x7d\x7d\x7d\x7bpath\x7d".toList (.obj []) = .ok "a.b.".toList ∧
    (arrowMacro [.text "a ".toList,
          .group [.text "-> b ".toList, .group [.text "path".toList], .text []], .text []]
          (transform noMacros 2)
        = .ok [.keepPath [.setPath "a".toList,
            .keepPath [.setPath "b".toList, .pushPath []]]] ∨
      eachMacro [.text "a ".toList,
          .group [.text "-> b ".toList, .group [.text "path".toList], .text []], .text []]
          (transform noMacros 2)
        = .ok [.keepPath [.setPath "a".toList,
            .keepPath [.setPath "b".toList, .pushPath []]]]) ∧
    ∃ r, execList (.obj []) none
          [.keepPath [.setPath "a".toList, .keepPath [.setPath "b".toList, .pushPath []]]] []
        = emits [] r ∧
      execList (.obj []) none
          ([.keepPath [.setPath "a".toList, .keepPath [.setPath "b".toList, .pushPath []]]]
            ++ [.pushPath []]) [] =
        match r with
        | .error e => .error e
        | .ok o1 =>
          match execList (.obj []) none [.pushPath []] [] with
          | .error e => .error e
          | .ok (p2, o2) => .ok (p2, o1 ++ o2) :=
  ⟨rfl, Or.inl rfl,
    descent_restores_path [.text "a ".toList,
        .group [.text "-> b ".toList, .group [.text "path".toList], .text []], .text []]
      (transform noMacros 2)
      [.keepPath [.setPath "a".toList, .keepPath [.setPath "b".toList, .pushPath []]]]
      [.pushPath []] (.obj []) none [] (Or.inl rfl)⟩

/-! ## `each` over a value that is no collection -/

/-- C12, as amended. When the argument of an `each` group resolves to
`undefined`, `null`, a boolean, a number or the empty string, the code of
the group runs its body zero times: it appends nothing and leaves the path
at `c`. -/
theorem eachMacro_scalar (tree : List Node) (recurse : Transform) (lit : Str)
    (tree1 : List Node) (body : Code) (d : JSVal) (item : Option Str) (c p : Str)
    (v : JSVal)
    (hp : parsePath tree = .ok (lit, tree1))
    (hb : transformTree tree1 recurse = .ok body)
    (hl : decodeLit lit = some p)
    (hr : resolve d (addToPath c p) = .ok v)
    (hv : v = .undefined ∨ v = .null ∨ (∃ b, v = .bool b) ∨ (∃ n, v = .num n) ∨ v = .str []) :
    eachKeys v = .ok [] ∧
    ∃ code, eachMacro tree recurse = .ok code ∧ execList d item code c = .ok (c, []) := by
  have hk : eachKeys v = .ok [] := by
    rcases hv with h | h | ⟨b, h⟩ | ⟨n, h⟩ | h <;> subst h
    · rfl
    · rfl
    · cases b <;> rfl
    · by_cases hn : n = 0 <;> simp [eachKeys, truthy, hn]
    · rfl
  refine ⟨hk, _, eachMacro_code tree recurse lit tree1 body hp hb, ?_⟩
  rw [exec_each_code d item lit p c body v [] hl hr hk]
  rfl

/-- Witness of the amended C12: `{each n x}` renders the empty string when
`n` is missing, `5`, `true` or `""`, and the theorem at the group
`each n x` with `n = 5`. -/
theorem eachMacro_scalar_witness :
    render 3 noMacros "\x7beach n x\x7d".toList (.obj []) = .ok [] ∧
    render 3 noMacros "\x7beach n x\x7d".toList (.obj [("n".toList, .num 5)]) = .ok [] ∧
    render 3 noMacros "\x7beach n x\x7d".toList (.obj [("n".toList, .bool true)]) = .ok [] ∧
    render 3 noMacros "\x7beach n x\x7d".toList (.obj [("n".toList, .str [])]) = .ok [] ∧
    (eachKeys (.num 5) = .ok [] ∧
      ∃ code, eachMacro [.text "n x".toList] (transform noMacros 1) = .ok code ∧
        execList (.obj [("n".toList, .num 5)]) none code [] = .ok ([], [])) :=
  ⟨rfl, rfl, rfl, rfl,
    eachMacro_scalar [.text "n x".toList] (transform noMacros 1) "n".toList
      [.text "x".toList] [.pushLit "x".toList] (.obj [("n".toList, .num 5)]) none []
      "n".toList (.num 5) rfl rfl rfl rfl (Or.inr (Or.inr (Or.inr (Or.inl ⟨5, rfl⟩))))⟩

/-- C12, counterexample. In `{name:"Bob"}` the argument `name` resolves to a
string, which is neither an array nor an object, but `each` enumerates its
three indices and the body runs three times. -/
theorem eachMacro_string_counterexample :
    resolve (.obj [("name".toList, .str "Bob".toList)]) (addToPath [] "name".toList)
      = .ok (.str "Bob".toList) ∧
    eachKeys (.str "Bob".toList) = .ok ["0".toList, "1".toList, "2".toList] ∧
    render 3 noMacros "\x7beach name x\x7d".toList (.obj [("name".toList, .str "Bob".toList)])
      = .ok "xxx".toList := by
  refine ⟨rfl, rfl, rfl⟩

/-! ## The segments `""` and `.` -/

theorem exec_setPath_dot (d : JSVal) (item : Option Str) (body : Code) (c : Str) :
    execList d item (keepPath (.setPath ['.'] :: body)) c =
      emits c (outputOf (execList d item body c)) := by
  have hdot : decodeLit ['.'] = some ['.'] := rfl
  have hadd : addToPath c ['.'] = c := by simp [addToPath]
  rw [keepPath, execList_singleton, exec_keepPath, exec_setPath_cons d item ['.'] ['.'] body c hdot,
    hadd]

/-- C13, as amended. As arguments, `""` and `.` denote the same context:
both resolve to the data root, `resolve(d, addToPath(c, ""))` equals
`resolve(d, addToPath(c, "."))` for every current path `c`, descending by
`.` keeps the path (`addToPath(c, ".") = c`, so the group `-> .` runs its
body at the current path), and descending by the empty argument keeps a
path that is not empty; `{-> . {. title}}` renders like `{. title}`. -/
theorem dot_and_empty_argument (d : JSVal) (c : Str) (item : Option Str) (body : Code) :
    resolve d [] = .ok d ∧ resolve d ['.'] = .ok d ∧
    resolve d (addToPath c []) = resolve d (addToPath c ['.']) ∧
    addToPath c ['.'] = c ∧ (c = [] ∨ addToPath c [] = c) ∧
    execList d item (keepPath (.setPath ['.'] :: body)) c =
      emits c (outputOf (execList d item body c)) ∧
    render 3 noMacros "\x7b-> . \x7b. title\x7d\x7d".toList titleData = .ok "X".toList ∧
    render 2 noMacros "\x7b. title\x7d".toList titleData = .ok "X".toList := by
  refine ⟨rfl, rfl, ?_, by simp [addToPath], ?_, exec_setPath_dot d item body c, rfl, rfl⟩
  · by_cases hc : c = []
    · subst hc; rfl
    · simp [addToPath, hc]
  · by_cases hc : c = []
    · exact Or.inl hc
    · exact Or.inr (by simp [addToPath, hc])

/-- C13, counterexample. With `d = {title:"X"}` and the segment `title`,
`addToPath(".", "title")` is `..title`, which resolves to `undefined`, while
`addToPath("", "title")` is `title`, which resolves to `"X"`; and
`{-> {. title}}` renders the empty string where `{. title}` renders `X`. -/
theorem dot_base_counterexample :
    addToPath ".".toList "title".toList = "..title".toList ∧
    resolve titleData (addToPath ".".toList "title".toList) = .ok .undefined ∧
    resolve titleData (addToPath [] "title".toList) = .ok (.str "X".toList) ∧
    render 3 noMacros "\x7b-> \x7b. title\x7d\x7d".toList titleData = .ok [] ∧
    render 2 noMacros "\x7b. title\x7d".toList titleData = .ok "X".toList := by
  refine ⟨rfl, rfl, rfl, rfl, rfl⟩


/-! ## Composition of descents -/

theorem decodeLit_append (y b : Str) (hy : decodeLit y = some b) :
    ∀ (n : Nat) (x a : Str), x.length ≤ n → decodeLit x = some a →
      decodeLit (x ++ y) = some (a ++ b) := by
  intro n
  induction n with
  | zero =>
    intro x a hlen hx
    have hnil : x = [] := List.length_eq_zero.mp (Nat.le_zero.mp hlen)
    subst hnil
    simp only [decodeLit, Option.some.injEq] at hx
    simp [← hx, hy]
  | succ n ih =>
    intro x a hlen hx
    cases x with
    | nil =>
      simp only [decodeLit, Option.some.injEq] at hx
      simp [← hx, hy]
    | cons ch rest =>
      unfold decodeLit at hx
      by_cases hbs : ch = '\\'
      · simp only [hbs, if_true] at hx
        cases rest with
        | nil => simp at hx
        | cons e rest2 =>
          simp only at hx
          cases hu : unescapeChar e with
          | none => simp [hu] at hx
          | some x1 =>
            cases hr : decodeLit rest2 with
            | none => simp [hu, hr] at hx
            | some r =>
              simp only [hu, hr, Option.some.injEq] at hx
              have hrec := ih rest2 r (by simp at hlen; omega) hr
              subst hbs
              rw [List.cons_append, List.cons_append]
              unfold decodeLit
              simp [hu, hrec, ← hx]
      · simp only [hbs, if_false] at hx
        by_cases hq : ch = '"' ∨ ch = Char.ofNat 10 ∨ ch = Char.ofNat 13
        · simp [hq] at hx
        · simp only [hq, if_false] at hx
          cases hr : decodeLit rest with
          | none => simp [hr] at hx
          | some r =>
            simp only [hr, Option.some.injEq] at hx
            have hrec := ih rest r (by simp at hlen; omega) hr
            rw [List.cons_append]
            unfold decodeLit
            simp [hbs, hq, hrec, ← hx]

theorem decodeLit_dot_join (la lb a b : Str) (hla : decodeLit la = some a)
    (hlb : decodeLit lb = some b) : decodeLit (la ++ '.' :: lb) = some (a ++ '.' :: b) := by
  have hdot : decodeLit ('.' :: lb) = some ('.' :: b) := by
    unfold decodeLit
    have h1 : ('.' : Char) ≠ '\\' := by decide
    have h2 : ¬ (('.' : Char) = '"' ∨ ('.' : Char) = Char.ofNat 10 ∨
        ('.' : Char) = Char.ofNat 13) := by decide
    simp [h1, h2, hlb]
  exact decodeLit_append ('.' :: lb) ('.' :: b) hdot la.length la a (Nat.le_refl _) hla

theorem addToPath_assoc (c a b : Str) (ha : a ≠ [] ∧ a ≠ ['.']) (hb : b ≠ [] ∧ b ≠ ['.']) :
    addToPath (addToPath c a) b = addToPath c (a ++ '.' :: b) := by
  have hab1 : a ++ '.' :: b ≠ [] := by simp
  have hab2 : a ++ '.' :: b ≠ ['.'] := by
    intro he
    have := congrArg List.length he
    cases a with
    | nil => exact ha.1 rfl
    | cons x xs => simp at this
  by_cases hc : c = []
  · simp [addToPath, hc, ha.1, ha.2, hb.1, hb.2, hab2]
  · simp [addToPath, hc, ha.1, ha.2, hb.1, hb.2, hab2]

theorem takeWhile_token_space (t r : Str) (ht : ∀ ch ∈ t, isSpace ch = false) :
    (t ++ ' ' :: r).takeWhile (fun ch => !isSpace ch) = t := by
  induction t with
  | nil =>
    have hsp : isSpace ' ' = true := by decide
    simp [List.takeWhile, hsp]
  | cons x xs ih =>
    have hx := ht x (by simp)
    simp [List.takeWhile, hx, ih (fun ch hch => ht ch (by simp [hch]))]

theorem takeWhile_token (t : Str) (ht : ∀ ch ∈ t, isSpace ch = false) :
    t.takeWhile (fun ch => !isSpace ch) = t := by
  induction t with
  | nil => rfl
  | cons x xs ih =>
    have hx := ht x (by simp)
    simp [List.takeWhile, hx, ih (fun ch hch => ht ch (by simp [hch]))]

theorem dropWhile_token (t r : Str) (hne : t ≠ []) (ht : ∀ ch ∈ t, isSpace ch = false) :
    (t ++ r).dropWhile isSpace = t ++ r := by
  cases t with
  | nil => exact absurd rfl hne
  | cons x xs =>
    have hx := ht x (by simp)
    simp [List.dropWhile, hx]

theorem parseArg_token_space (t r : Str) (rest : List Node)
    (ht : ∀ ch ∈ t, isSpace ch = false) :
    parseArg (.text (t ++ ' ' :: r) :: rest) = .ok (t, .text (r.dropWhile isSpace) :: rest) := by
  have hsp : isSpace ' ' = true := by decide
  simp [parseArg, takeWhile_token_space t r ht, List.dropWhile, hsp]

theorem parseArg_token_end (t : Str) (rest : List Node)
    (ht : ∀ ch ∈ t, isSpace ch = false) :
    parseArg (.text t :: rest) = .ok (t, .text [] :: rest) := by
  simp [parseArg, takeWhile_token t ht]

theorem transform_succ (macros : Str → Option Macro) (depth : Nat) (tree : List Node) :
    transform macros (depth + 1) tree =
      match parseArg tree with
      | .error e => .error e
      | .ok (macroName, tree1) =>
        match lookupMacro macros macroName with
        | .fn m => m tree1 (transform macros depth)
        | .inherited => callInherited macroName
        | .absent => .error (.error ("Not a macro:".toList ++ macroName)) := rfl

theorem transform_dot_group (depth : Nat) (t : Str) (ht : ∀ ch ∈ t, isSpace ch = false) :
    transform noMacros (depth + 1) [.text ('.' :: ' ' :: t)] = .ok [.pushResolve t] := by
  have hname : ∀ ch ∈ ['.'], isSpace ch = false := by decide
  have hpa := parseArg_token_space ['.'] t [] hname
  simp only [List.singleton_append] at hpa
  have hlook : lookupMacro noMacros ['.'] = .fn dotMacro := rfl
  cases t with
  | nil =>
    simp only [transform, hpa, hlook, List.dropWhile, dotMacro, parsePath,
      parseArg_token_end [] [] (by simp)]
  | cons x xs =>
    have hdw : (x :: xs).dropWhile isSpace = x :: xs := by
      simpa using dropWhile_token (x :: xs) [] (by simp) ht
    simp only [transform, hpa, hlook, hdw, dotMacro, parsePath, parseArg_token_end (x :: xs) [] ht]

theorem transform_arrow_dot_group (depth : Nat) (la lb : Str) (hne : la ≠ [])
    (hla : ∀ ch ∈ la, isSpace ch = false) (hlb : ∀ ch ∈ lb, isSpace ch = false) :
    transform noMacros (depth + 2)
        [.text ('-' :: '>' :: ' ' :: (la ++ [' '])), .group [.text ('.' :: ' ' :: lb)], .text []]
      = .ok (keepPath [.setPath la, .pushResolve lb]) := by
  have hname : ∀ ch ∈ ['-', '>'], isSpace ch = false := by decide
  have hpa := parseArg_token_space ['-', '>'] (la ++ [' '])
    [.group [.text ('.' :: ' ' :: lb)], .text []] hname
  simp only [List.cons_append, List.nil_append] at hpa
  have hlook : lookupMacro noMacros ['-', '>'] = .fn arrowMacro := rfl
  have hdw : (la ++ [' ']).dropWhile isSpace = la ++ [' '] := dropWhile_token la [' '] hne hla
  have hpa2 := parseArg_token_space la [] [.group [.text ('.' :: ' ' :: lb)], .text []] hla
  simp only [List.dropWhile] at hpa2
  rw [transform_succ, hpa]
  simp only [hlook, hdw, arrowMacro, parsePath, hpa2, transformTree, output,
    transform_dot_group depth lb hlb, if_true, List.nil_append, List.append_nil, keepPath,
    List.singleton_append]


/-! ## Shape of the parse tree -/

theorem shape_positions (g : List Node) :
    (shapeList g = true → g.length % 2 = 1 ∧
      ∀ (i : Nat) (n : Node), g[i]? = some n →
        (i % 2 = 0 → n.isText = true) ∧ (i % 2 = 1 → n.isGroup = true)) ∧
    (shapeTail g = true → g.length % 2 = 0 ∧
      ∀ (i : Nat) (n : Node), g[i]? = some n →
        (i % 2 = 0 → n.isGroup = true) ∧ (i % 2 = 1 → n.isText = true)) := by
  induction g with
  | nil =>
    constructor
    · intro h; simp [shapeList] at h
    · intro _; simp
  | cons m rest ih =>
    constructor
    · intro h
      simp only [shapeList, Bool.and_eq_true] at h
      obtain ⟨hlen, hpos⟩ := ih.2 h.2
      refine ⟨by simp only [List.length_cons]; omega, fun i n hi => ?_⟩
      cases i with
      | zero =>
        simp only [List.getElem?_cons_zero, Option.some.injEq] at hi
        subst hi
        exact ⟨fun _ => h.1, fun hc => by omega⟩
      | succ j =>
        simp only [List.getElem?_cons_succ] at hi
        have := hpos j n hi
        exact ⟨fun hc => this.2 (by omega), fun hc => this.1 (by omega)⟩
    · intro h
      simp only [shapeTail, Bool.and_eq_true] at h
      obtain ⟨hlen, hpos⟩ := ih.1 h.2
      refine ⟨by simp only [List.length_cons]; omega, fun i n hi => ?_⟩
      cases i with
      | zero =>
        simp only [List.getElem?_cons_zero, Option.some.injEq] at hi
        subst hi
        refine ⟨fun _ => ?_, fun hc => by omega⟩
        cases m with
        | text s => simp [groupItem] at h
        | group cs => rfl
      | succ j =>
        simp only [List.getElem?_cons_succ] at hi
        have := hpos j n hi
        exact ⟨fun hc => this.2 (by omega), fun hc => this.1 (by omega)⟩

mutual
theorem shapeList_nested : ∀ (g : List Node), shapeList g = true →
    ∀ x ∈ nestedGroups g, shapeList x = true
  | [], h, x, hx => by simp [nestedGroups] at hx
  | n :: rest, h, x, hx => by
    simp only [shapeList, Bool.and_eq_true] at h
    simp only [nestedGroups, List.mem_append] at hx
    rcases hx with hx | hx
    · cases n with
      | text s => simp [nodeGroups] at hx
      | group cs => simp [Node.isText] at h
    · exact shapeTail_nested rest h.2 x hx
theorem shapeTail_nested : ∀ (g : List Node), shapeTail g = true →
    ∀ x ∈ nestedGroups g, shapeList x = true
  | [], h, x, hx => by simp [nestedGroups] at hx
  | n :: rest, h, x, hx => by
    simp only [shapeTail, Bool.and_eq_true] at h
    simp only [nestedGroups, List.mem_append] at hx
    rcases hx with hx | hx
    · exact groupItem_nested n h.1 x hx
    · exact shapeList_nested rest h.2 x hx
theorem groupItem_nested : ∀ (n : Node), groupItem n = true →
    ∀ x ∈ nodeGroups n, shapeList x = true
  | .text s, h, x, hx => by simp [nodeGroups] at hx
  | .group cs, h, x, hx => by
    simp only [groupItem] at h
    simp only [nodeGroups, List.mem_cons] at hx
    rcases hx with hx | hx
    · rw [hx]; exact h
    · exact shapeList_nested cs h x hx
end

theorem shape_snoc_group (g : List Node) (s : Str) (hg : shapeList g = true) (cs : List Node) :
    (shapeList cs = true → shapeList (cs ++ [.group g, .text s]) = true) ∧
    (shapeTail cs = true → shapeTail (cs ++ [.group g, .text s]) = true) := by
  induction cs with
  | nil =>
    constructor
    · intro h; simp [shapeList] at h
    · intro _; simp [shapeTail, shapeList, groupItem, Node.isText, hg]
  | cons m rest ih =>
    constructor
    · intro h
      simp only [shapeList, Bool.and_eq_true, List.cons_append] at h ⊢
      exact ⟨h.1, ih.2 h.2⟩
    · intro h
      simp only [shapeTail, Bool.and_eq_true, List.cons_append] at h ⊢
      exact ⟨h.1, ih.1 h.2⟩

theorem shape_last_text (cs : List Node) :
    (shapeList cs = true → ∃ init s, cs = init ++ [.text s]) ∧
    (shapeTail cs = true → cs = [] ∨ ∃ init s, cs = init ++ [.text s]) := by
  induction cs with
  | nil =>
    constructor
    · intro h; simp [shapeList] at h
    · intro _; exact Or.inl rfl
  | cons m rest ih =>
    constructor
    · intro h
      simp only [shapeList, Bool.and_eq_true] at h
      rcases ih.2 h.2 with hnil | ⟨init, s, hr⟩
      · subst hnil
        cases m with
        | text s => exact ⟨[], s, rfl⟩
        | group cs => simp [Node.isText] at h
      · exact ⟨m :: init, s, by simp [hr]⟩
    · intro h
      simp only [shapeTail, Bool.and_eq_true] at h
      obtain ⟨init, s, hr⟩ := ih.1 h.2
      exact Or.inr ⟨m :: init, s, by simp [hr]⟩

theorem shape_replace_last (s1 s2 : Str) (init : List Node) :
    shapeList (init ++ [.text s1]) = shapeList (init ++ [.text s2]) ∧
    shapeTail (init ++ [.text s1]) = shapeTail (init ++ [.text s2]) := by
  induction init with
  | nil => simp [shapeList, shapeTail, groupItem, Node.isText]
  | cons m rest ih =>
    simp only [List.cons_append, shapeList, shapeTail, ih.1, ih.2, and_self]

theorem shape_appendChar (cs : List Node) (ch : Char) (h : shapeList cs = true) :
    shapeList (appendChar cs ch) = true := by
  obtain ⟨init, s, hcs⟩ := (shape_last_text cs).1 h
  subst hcs
  rw [appendChar_snoc, (shape_replace_last (s ++ [ch]) s init).1]
  exact h

theorem parseStep_shape (st st1 : PState) (ch : Char)
    (hcur : shapeList st.current = true) (hstack : ∀ f ∈ st.stack, shapeList f = true)
    (h : parseStep st ch = .ok st1) :
    shapeList st1.current = true ∧ ∀ f ∈ st1.stack, shapeList f = true := by
  unfold parseStep at h
  by_cases h1 : ch = '{'
  · simp only [h1, if_true, Except.ok.injEq] at h
    subst h
    refine ⟨rfl, fun f hf => ?_⟩
    rcases List.mem_cons.mp hf with hf | hf
    · rw [hf]; exact hcur
    · exact hstack f hf
  · simp only [h1, if_false] at h
    by_cases h2 : ch = '}'
    · simp only [h2, if_true] at h
      cases hs : st.stack with
      | nil => simp [hs] at h
      | cons parent more =>
        simp only [hs, Except.ok.injEq] at h
        subst h
        have hpar : shapeList parent = true := hstack parent (by simp [hs])
        refine ⟨(shape_snoc_group st.current [] hcur parent).1 hpar, fun f hf => ?_⟩
        exact hstack f (by simp [hs, hf])
    · simp only [h2, if_false, Except.ok.injEq] at h
      subst h
      exact ⟨shape_appendChar st.current ch hcur, hstack⟩

theorem parseLoop_shape (r : Str) : ∀ st st1 : PState,
    shapeList st.current = true → (∀ f ∈ st.stack, shapeList f = true) →
    parseLoop st r = .ok st1 → shapeList st1.current = true := by
  induction r with
  | nil =>
    intro st st1 hcur _ h
    simp only [parseLoop, Except.ok.injEq] at h
    rw [← h]; exact hcur
  | cons ch rest ih =>
    intro st st1 hcur hstack h
    simp only [parseLoop] at h
    cases hstep : parseStep st ch with
    | error e => simp [hstep] at h
    | ok st2 =>
      simp only [hstep] at h
      obtain ⟨hc2, hs2⟩ := parseStep_shape st st2 ch hcur hstack hstep
      exact ih st2 st1 hc2 hs2 h

theorem parse_shape (s : Str) (t : List Node) (h : parse s = .ok t) : shapeList t = true := by
  unfold parse at h
  cases hp : parseLoop ⟨[.text []], []⟩ s with
  | error e => simp [hp] at h
  | ok st =>
    simp only [hp] at h
    by_cases hz : st.stack.length = 0
    · simp only [hz, ne_eq, not_true_eq_false, if_false, Except.ok.injEq] at h
      rw [← h]
      exact parseLoop_shape s ⟨[.text []], []⟩ st rfl (by simp) hp
    · simp [hz] at h

/-- C19. Tree shape invariant of `parse`. For every balanced source `parse`
returns a tree in which every group, the root included, has an odd number
of children, with a Text child at every even position and a Group at every
odd position. -/
theorem parse_tree_shape (s : Str) (h : Balanced s) :
    ∃ t, parse s = .ok t ∧ ∀ g ∈ t :: nestedGroups t, OddAlternating g := by
  obtain ⟨t, ht⟩ := (parse_ok_iff_scan s).mpr ((balanced_iff_scanDepth s).mp h)
  refine ⟨t, ht, fun g hg => ?_⟩
  have hroot := parse_shape s t ht
  have hshape : shapeList g = true := by
    rcases List.mem_cons.mp hg with hg | hg
    · rw [hg]; exact hroot
    · exact shapeList_nested t hroot g hg
  exact (shape_positions g).1 hshape

/-- Witness of C19: `parse("{a {b} c}")` is `['', ['a ', ['b'], ' c'], '']`,
and the theorem at that source. -/
theorem parse_tree_shape_witness :
    Balanced "\x7ba \x7bb\x7d c\x7d".toList ∧
    parse "\x7ba \x7bb\x7d c\x7d".toList = .ok [.text [],
      .group [.text "a ".toList, .group [.text "b".toList], .text " c".toList], .text []] ∧
    ∃ t, parse "\x7ba \x7bb\x7d c\x7d".toList = .ok t ∧ ∀ g ∈ t :: nestedGroups t, OddAlternating g :=
  ⟨by decide, rfl, parse_tree_shape "\x7ba \x7bb\x7d c\x7d".toList (by decide)⟩

/-! ## Literal text and `escapeJS` -/

theorem replaceChar_append (ch : Char) (by1 a b : Str) :
    replaceChar ch by1 (a ++ b) = replaceChar ch by1 a ++ replaceChar ch by1 b := by
  induction a with
  | nil => rfl
  | cons x xs ih =>
    by_cases hx : x = ch <;> simp [replaceChar, hx, ih]

theorem escapeJS_cons (ch : Char) (rest : Str) :
    escapeJS (ch :: rest) = escChar ch ++ escapeJS rest := by
  have hq1 : ('"' : Char) ≠ '\'' := by decide
  have hq2 : ('"' : Char) ≠ Char.ofNat 10 := by decide
  have hq3 : ('\\' : Char) ≠ '\'' := by decide
  have hq4 : ('\\' : Char) ≠ Char.ofNat 10 := by decide
  have hq5 : ('\'' : Char) ≠ Char.ofNat 10 := by decide
  unfold escapeJS escChar
  by_cases h1 : ch = '"'
  · subst h1
    simp [replaceChar, replaceChar_append, hq1, hq2, hq3, hq4]
  · by_cases h2 : ch = '\''
    · subst h2
      simp [replaceChar, replaceChar_append, h1, hq4, hq5]
    · by_cases h3 : ch = Char.ofNat 10
      · subst h3
        simp [replaceChar, h1, h2]
      · simp [replaceChar, h1, h2, h3]

theorem decodeLit_escapeJS (x : Str) (h : ∀ ch ∈ x, ch ≠ '\\' ∧ ch ≠ Char.ofNat 13) :
    decodeLit (escapeJS x) = some x := by
  induction x with
  | nil => rfl
  | cons ch rest ih =>
    have hc := h ch (by simp)
    have hr := ih (fun c hcm => h c (by simp [hcm]))
    rw [escapeJS_cons]
    unfold escChar
    by_cases h1 : ch = '"'
    · subst h1
      have hu : unescapeChar '"' = some '"' := by decide
      simp only [if_true, List.cons_append, List.nil_append]
      unfold decodeLit
      simp [hu, hr]
    · by_cases h2 : ch = '\''
      · subst h2
        have hu : unescapeChar '\'' = some '\'' := by decide
        simp only [h1, if_false, if_true, List.cons_append, List.nil_append]
        unfold decodeLit
        simp [hu, hr]
      · by_cases h3 : ch = Char.ofNat 10
        · subst h3
          have hu : unescapeChar 'n' = some (Char.ofNat 10) := by decide
          simp only [h1, h2, if_false, if_true, List.cons_append, List.nil_append]
          unfold decodeLit
          simp [hu, hr]
        · simp only [h1, h2, h3, if_false, List.cons_append, List.nil_append]
          unfold decodeLit
          simp [hc.1, hc.2, h1, h3, hr]

theorem parseLoop_plain (r : Str) (hr : ∀ ch ∈ r, ch ≠ '{' ∧ ch ≠ '}') :
    ∀ (s : Str) (stack : List (List Node)),
      parseLoop ⟨[.text s], stack⟩ r = .ok ⟨[.text (s ++ r)], stack⟩ := by
  induction r with
  | nil => intro s stack; simp [parseLoop]
  | cons ch rest ih =>
    intro s stack
    have hc := hr ch (by simp)
    simp only [parseLoop, parseStep, hc.1, hc.2, if_false, appendChar]
    rw [ih (fun c hcm => hr c (by simp [hcm]))]
    simp

theorem parse_plain (t : Str) (ht : ∀ ch ∈ t, ch ≠ '{' ∧ ch ≠ '}') :
    parse t = .ok [.text t] := by
  unfold parse
  rw [parseLoop_plain t ht [] []]
  simp

theorem run_output (x : Str) (d : JSVal) (h : ∀ ch ∈ x, ch ≠ '\\' ∧ ch ≠ Char.ofNat 13) :
    ∃ prog, wrapTemplate (output x) = .ok prog ∧ prog.run d = .ok x := by
  have hdec := decodeLit_escapeJS x h
  by_cases hx : x = []
  · subst hx
    exact ⟨⟨[]⟩, rfl, rfl⟩
  · refine ⟨⟨[.pushLit (escapeJS x)]⟩, ?_, ?_⟩
    · simp [wrapTemplate, output, hx, Stmt.litsOkList, Stmt.litsOk, hdec]
    · simp [Program.run, execList, exec, hdec]

/-- C15, as amended. For every template `t` without braces, backslash and
carriage return, and every data value, `render(t, d)` is `t` without its
leading whitespace: the implicit wrapper `out` is parsed like every macro
name, together with the whitespace that follows it. -/
theorem render_plain_text (depth : Nat) (t : Str) (d : JSVal)
    (ht : ∀ ch ∈ t, ch ≠ '{' ∧ ch ≠ '}' ∧ ch ≠ '\\' ∧ ch ≠ Char.ofNat 13) :
    render (depth + 1) noMacros t d = .ok (t.dropWhile isSpace) := by
  have hout : ∀ ch ∈ "out ".toList, ch ≠ '{' ∧ ch ≠ '}' := by decide
  have hplain : ∀ ch ∈ "out ".toList ++ t, ch ≠ '{' ∧ ch ≠ '}' := by
    intro ch hch
    rcases List.mem_append.mp hch with h | h
    · exact hout ch h
    · exact ⟨(ht ch h).1, (ht ch h).2.1⟩
  have hname : ∀ ch ∈ ['o', 'u', 't'], isSpace ch = false := by decide
  have hpa := parseArg_token_space ['o', 'u', 't'] t [] hname
  have hlook : lookupMacro noMacros ['o', 'u', 't'] = .fn outMacro := rfl
  have hx : ∀ ch ∈ t.dropWhile isSpace, ch ≠ '\\' ∧ ch ≠ Char.ofNat 13 := by
    intro ch hch
    have hmem : ch ∈ t := (List.dropWhile_sublist _).subset hch
    exact ⟨(ht ch hmem).2.2.1, (ht ch hmem).2.2.2⟩
  obtain ⟨prog, hw, hrun⟩ := run_output (t.dropWhile isSpace) d hx
  have hparse := parse_plain ("out ".toList ++ t) hplain
  have htr : transform noMacros (depth + 1) [.text ("out ".toList ++ t)]
      = .ok (output (t.dropWhile isSpace)) := by
    rw [transform_succ]
    have h4 : "out ".toList ++ t = ['o', 'u', 't'] ++ ' ' :: t := rfl
    rw [h4, hpa]
    simp only [hlook, outMacro, transformTree, List.append_nil]
  simp only [render, compile, hparse, htr, hw, hrun]

/-- Witness of the amended C15: `hello "x"` followed by a line feed renders
unchanged, and ` hi ` renders `hi `. -/
theorem render_plain_text_witness :
    (∀ ch ∈ " hi ".toList, ch ≠ '{' ∧ ch ≠ '}' ∧ ch ≠ '\\' ∧ ch ≠ Char.ofNat 13) ∧
    render 1 noMacros "hello \"x\"\n".toList (.obj []) = .ok "hello \"x\"\n".toList ∧
    render (0 + 1) noMacros " hi ".toList (.obj []) = .ok (" hi ".toList.dropWhile isSpace) :=
  ⟨by decide, rfl, render_plain_text 0 " hi ".toList (.obj []) (by decide)⟩

/-- C15, counterexample. The template ` hi` holds no brace, but it renders
`hi`: the leading blank is dropped. -/
theorem render_leading_space_counterexample :
    (∀ ch ∈ " hi".toList, ch ≠ '{' ∧ ch ≠ '}') ∧
    render 1 noMacros " hi".toList (.obj []) = .ok "hi".toList ∧
    "hi".toList ≠ " hi".toList := by
  refine ⟨by decide, rfl, by decide⟩

/-- C18, at the failing input. `escapeJS` leaves a backslash as it is, so
the literal built from the two characters backslash, `t` denotes a tab, and
`helper.output` of that text emits a tab; a carriage return is left raw in
the literal, which is then not well-formed (`decodeLit` has no value). A
double quote, an apostrophe and a line feed are escaped and come back. -/
theorem escapeJS_backslash_not_escaped :
    escapeJS ['\\', 't'] = ['\\', 't'] ∧
    decodeLit (escapeJS ['\\', 't']) = some [Char.ofNat 9] ∧
    output ['\\', 't'] = [.pushLit ['\\', 't']] ∧
    execList (.obj []) none (output ['\\', 't']) [] = .ok ([], [Char.ofNat 9]) ∧
    render 1 noMacros ['a', '\\', 't', 'b'] (.obj []) = .ok ['a', Char.ofNat 9, 'b'] ∧
    escapeJS [Char.ofNat 13] = [Char.ofNat 13] ∧
    decodeLit (escapeJS [Char.ofNat 13]) = none ∧
    decodeLit (escapeJS ['"', '\'', Char.ofNat 10]) = some ['"', '\'', Char.ofNat 10] := by
  refine ⟨rfl, rfl, rfl, rfl, rfl, rfl, rfl, rfl⟩

/-! ## Exceptions at run time -/

/-- C17, at the failing inputs. Both templates compile with the built-in
macros, and both data values are JSON-like. Against
`{"hasOwnProperty": 1}` the call `obj.hasOwnProperty(key)` in `each`
throws a `TypeError`; against `{"toString": 1}` the conversion of the
resolved object in `__out.join("")` throws a `TypeError`. The part of the
claim about `resolve` holds: on the data of the template function
(`data || {}`) it returns a value for every path. -/
theorem run_throws_on_shadowing_key :
    (∃ prog, compile 2 noMacros "\x7beach . x\x7d".toList = .ok prog ∧
      prog.run (.obj [("hasOwnProperty".toList, .num 1)]) = .error .typeError) ∧
    (∃ prog, compile 2 noMacros "\x7b.\x7d".toList = .ok prog ∧
      prog.run (.obj [("toString".toList, .num 1)]) = .error .typeError) ∧
    (∀ (d : JSVal) (path : Str),
      ∃ v, resolve (if truthy d then d else .obj []) path = .ok v) := by
  refine ⟨⟨_, rfl, rfl⟩, ⟨_, rfl, rfl⟩, fun d path => ?_⟩
  have hd : truthy (if truthy d then d else .obj []) = true := by
    by_cases h : truthy d = true
    · rw [if_pos h]; exact h
    · rw [if_neg h]; rfl
  obtain ⟨v, hv, _⟩ := resolve_truthy_data _ path hd
  exact ⟨v, hv⟩

/-! ## `resolve` against its reference definition -/

theorem resolveLoopWith_spec {V : Type} (A : Access V) (parts : List Str) : ∀ v : V,
    lookupSegmentsWith A v parts =
      match resolveLoopWith A v parts with
      | .error e => .error e
      | .ok (x, rest) => if rest.length > 0 then .ok A.undefined else .ok x := by
  induction parts with
  | nil => intro v; simp [lookupSegmentsWith, resolveLoopWith]
  | cons part rest ih =>
    intro v
    simp only [lookupSegmentsWith, resolveLoopWith]
    cases A.get v part with
    | error e => rfl
    | ok w =>
      by_cases ht : A.truthy w = true
      · simp only [ht, if_true]
        exact ih w
      · simp [ht]

theorem resolveLoop_eq_with (parts : List Str) : ∀ v : JSVal,
    resolveLoop v parts = resolveLoopWith jsonAccess v parts := by
  induction parts with
  | nil => intro v; rfl
  | cons part rest ih =>
    intro v
    simp only [resolveLoop, resolveLoopWith, jsonAccess]
    cases getProp v part with
    | error e => rfl
    | ok w =>
      by_cases ht : truthy w = true
      · simp only [ht, if_true]
        exact ih w
      · simp [ht]

theorem resolve_eq_with (d : JSVal) (path : Str) :
    resolve d path = resolveWith jsonAccess d path := by
  unfold resolve resolveWith
  rw [resolveLoop_eq_with]
  by_cases hroot : path = [] ∨ path = ['.']
  · simp [hroot]
  · simp only [hroot, if_false]
    cases resolveLoopWith jsonAccess d (splitDot path) with
    | error e => rfl
    | ok r => rfl

/-- C7. `resolve` equals its reference definition. For every semantics of
values and of the property access `obj[key]` (own or inherited properties,
accesses that throw), `resolveWith` equals `resolveSpecWith`: the data root
for the path `""` or `.`, otherwise the segments of the split path looked
up one after another, with the value reached if every lookup is truthy and
`undefined` from the first lookup that is missing or falsy. `resolve` is
`resolveWith` on the JSON-like data values, and takes the three values the
specification lists. -/
theorem resolve_eq_resolveSpec {V : Type} (A : Access V) (d : V) (path : Str) :
    resolveWith A d path = resolveSpecWith A d path ∧
    (∀ (j : JSVal) (q : Str), resolve j q = resolveWith jsonAccess j q) ∧
    resolve (.obj [("a".toList, .obj [("b".toList, .num 1)])]) "a.b".toList = .ok (.num 1) ∧
    resolve (.obj [("a".toList, .obj [("b".toList, .num 0)])]) "a.b".toList = .ok .undefined ∧
    resolve (.obj []) "x.y".toList = .ok .undefined := by
  refine ⟨?_, resolve_eq_with, rfl, rfl, rfl⟩
  unfold resolveWith resolveSpecWith
  by_cases hroot : path = [] ∨ path = ['.']
  · simp [hroot]
  · simp only [hroot, if_false]
    rw [resolveLoopWith_spec A (splitDot path) d]

/-! ## A template that is one group -/

theorem transform_named (depth : Nat) (g g1 : List Node) (name : Str) (m : Macro)
    (hname : parseArg g = .ok (name, g1)) (hlook : lookupMacro noMacros name = .fn m) :
    transform noMacros (depth + 1) g = m g1 (transform noMacros depth) := by
  rw [transform_succ, hname]
  simp only [hlook]

theorem render_single_group (depth : Nat) (input : Str) (g : List Node) (code : Code)
    (d : JSVal)
    (hparse : parse ("out ".toList ++ input) = .ok [.text "out ".toList, .group g, .text []])
    (hcode : transform noMacros (depth + 1) g = .ok code)
    (hok : Stmt.litsOkList code = true) :
    render (depth + 2) noMacros input d =
      outputOf (execList (if truthy d then d else .obj []) none code []) := by
  have hname : ∀ ch ∈ ['o', 'u', 't'], isSpace ch = false := by decide
  have hpa := parseArg_token_space ['o', 'u', 't'] [] [.group g, .text []] hname
  have hlook : lookupMacro noMacros ['o', 'u', 't'] = .fn outMacro := rfl
  have h4 : "out ".toList = ['o', 'u', 't'] ++ [' '] := rfl
  have htr : transform noMacros (depth + 2) [.text "out ".toList, .group g, .text []]
      = .ok code := by
    rw [transform_succ, h4, hpa]
    simp only [hlook, outMacro, List.dropWhile, transformTree, output, hcode, if_true,
      List.nil_append, List.append_nil]
  simp only [render, compile, hparse, htr, wrapTemplate, hok, if_true, Program.run]
  cases execList (if truthy d then d else .obj []) none code [] with
  | error e => rfl
  | ok r => rfl

theorem resolve_falsy_absent (d : JSVal) (path : Str) (v : JSVal) (hd : truthy d = true)
    (hr : resolve d path = .ok v) : v = .undefined ∨ truthy v = true := by
  obtain ⟨w, hw, hfalsy⟩ := resolve_truthy_data d path hd
  rw [hw] at hr
  simp only [Except.ok.injEq] at hr
  rw [← hr]
  exact hfalsy

theorem truthy_data_or_empty (d : JSVal) :
    truthy (if truthy d then d else .obj []) = true := by
  by_cases h : truthy d = true
  · rw [if_pos h]; exact h
  · rw [if_neg h]; rfl

/-! ## The `has` macro -/

/-- C6, as amended. Let the template be the one group `has p B`, with an
argument token `p` that holds no double quote and no backslash and a body
that compiles to code `body` whose string literals are well-formed (covered
by `decodeLit`). The group compiles to a conditional around `body`. Run at
any current path `c` against data `d` (truthy, as the data of the template
function is), with `v` the value of `resolve(d, addToPath(c, p))`: `v` is
`undefined` or truthy, the conditional is the body run at the same path
`c` when `v` is not `undefined`, and appends nothing otherwise. Rendering
the template gives the output of the body, or the empty string,
accordingly. -/
theorem hasMacro_spec (depth : Nat) (input : Str) (g g1 g2 : List Node) (p : Str)
    (body : Code)
    (hparse : parse ("out ".toList ++ input) = .ok [.text "out ".toList, .group g, .text []])
    (hname : parseArg g = .ok ("has".toList, g1))
    (hp : parsePath g1 = .ok (p, g2))
    (hb : transformTree g2 (transform noMacros depth) = .ok body)
    (hplain : ∀ ch ∈ p, ch ≠ '"' ∧ ch ≠ '\\')
    (hok : Stmt.litsOkList body = true) :
    transform noMacros (depth + 1) g = .ok [.ifResolved p body] ∧
    (∀ (d : JSVal) (item : Option Str) (c : Str) (v : JSVal),
      truthy d = true → resolve d (addToPath c p) = .ok v →
      (v = .undefined ∨ truthy v = true) ∧
      execList d item [.ifResolved p body] c =
        if v.isUndefined then .ok (c, []) else execList d item body c) ∧
    (∀ (d v : JSVal),
      resolve (if truthy d then d else .obj []) (addToPath [] p) = .ok v →
      render (depth + 2) noMacros input d =
        if v.isUndefined then .ok []
        else outputOf (execList (if truthy d then d else .obj []) none body [])) := by
  have hdec : decodeLit p = some p := decodeLit_token g1 p g2 hp hplain
  have hlook : lookupMacro noMacros "has".toList = .fn hasMacro := rfl
  have hcode : transform noMacros (depth + 1) g = .ok [.ifResolved p body] := by
    rw [transform_named depth g g1 "has".toList hasMacro hname hlook]
    simp [hasMacro, hp, hb]
  have hexec : ∀ (d : JSVal) (item : Option Str) (c : Str) (v : JSVal),
      resolve d (addToPath c p) = .ok v →
      execList d item [.ifResolved p body] c =
        if v.isUndefined then .ok (c, []) else execList d item body c := by
    intro d item c v hv
    rw [execList_singleton]
    simp only [exec, hdec, hv]
  refine ⟨hcode, fun d item c v hd hv => ⟨resolve_falsy_absent d _ v hd hv, hexec d item c v hv⟩,
    fun d v hv => ?_⟩
  have hlits : Stmt.litsOkList [.ifResolved p body] = true := by
    simp [Stmt.litsOkList, Stmt.litsOk, hdec, hok]
  rw [render_single_group depth input g _ d hparse hcode hlits, hexec _ none [] v hv]
  cases v <;> simp [JSVal.isUndefined, outputOf]

/-- Witness of the amended C6: `{has title <h1>{. title}</h1>}` renders
`<h1>X</h1>` against `{title:"X"}` and the empty string against `{}`;
`{has n body}` renders the empty string when `n` is `0`, `""`, `false` or
`null`; and the theorem at that template. -/
theorem hasMacro_spec_witness :
    render 3 noMacros titleTemplate titleData = .ok "<h1>X</h1>".toList ∧
    render 3 noMacros titleTemplate (.obj []) = .ok [] ∧
    render 3 noMacros "\x7bhas n body\x7d".toList (.obj [("n".toList, .num 0)]) = .ok [] ∧
    render 3 noMacros "\x7bhas n body\x7d".toList (.obj [("n".toList, .str [])]) = .ok [] ∧
    render 3 noMacros "\x7bhas n body\x7d".toList (.obj [("n".toList, .bool false)]) = .ok [] ∧
    render 3 noMacros "\x7bhas n body\x7d".toList (.obj [("n".toList, .null)]) = .ok [] ∧
    (transform noMacros (1 + 1)
        [.text "has title <h1>".toList, .group [.text ". title".toList], .text "</h1>".toList]
      = .ok [.ifResolved "title".toList titleBody] ∧
    (∀ (d : JSVal) (item : Option Str) (c : Str) (v : JSVal),
      truthy d = true → resolve d (addToPath c "title".toList) = .ok v →
      (v = .undefined ∨ truthy v = true) ∧
      execList d item [.ifResolved "title".toList titleBody] c =
        if v.isUndefined then .ok (c, []) else execList d item titleBody c) ∧
    (∀ (d v : JSVal),
      resolve (if truthy d then d else .obj []) (addToPath [] "title".toList) = .ok v →
      render (1 + 2) noMacros titleTemplate d =
        if v.isUndefined then .ok []
        else outputOf (execList (if truthy d then d else .obj []) none titleBody []))) :=
  ⟨rfl, rfl, rfl, rfl, rfl, rfl,
    hasMacro_spec 1 titleTemplate
      [.text "has title <h1>".toList, .group [.text ". title".toList], .text "</h1>".toList]
      [.text "title <h1>".toList, .group [.text ". title".toList], .text "</h1>".toList]
      [.text "<h1>".toList, .group [.text ". title".toList], .text "</h1>".toList]
      "title".toList titleBody rfl rfl rfl rfl (by decide) rfl⟩

/-- C6, counterexample. The argument token is backslash-`a`; against
`{"\\a": 1}` the value of `resolve(d, addToPath("", p))` is `1`, which is
defined, but the generated literal `"\a"` denotes the path `a`, the
condition is `undefined` and the body `yes` is skipped. -/
theorem hasMacro_backslash_counterexample :
    resolve backslashOneData (addToPath [] ['\\', 'a']) = .ok (.num 1) ∧
    JSVal.isUndefined (.num 1) = false ∧
    render 2 noMacros "yes".toList backslashOneData = .ok "yes".toList ∧
    render 2 noMacros ("\x7bhas ".toList ++ ['\\', 'a'] ++ " yes\x7d".toList) backslashOneData
      = .ok [] := by
  refine ⟨rfl, rfl, rfl, rfl⟩

/-! ## `each` over an array -/

/-- C4, as amended. Let the template be the one group `each p B`, with an
argument token `p` that holds no double quote and no backslash and a body
that compiles to code `body` whose string literals are well-formed (covered
by `decodeLit`). The group compiles to the closure of the `each` macro. Run
at any current path `c` against data in which `addToPath(c, p)` resolves to
an array of `n` items, that code leaves the path at `c` and appends the
concatenation, for `i = 0, ..., n-1` in ascending order, of the output of
`body` run with current path `addToPath(addToPath(c, p), i)`; the runs are
indexed by `List.range n` whatever the items are. Rendering the template
gives that concatenation for `c = ""`. -/
theorem eachMacro_array (depth : Nat) (input : Str) (g g1 g2 : List Node) (p : Str)
    (body : Code)
    (hparse : parse ("out ".toList ++ input) = .ok [.text "out ".toList, .group g, .text []])
    (hname : parseArg g = .ok ("each".toList, g1))
    (hp : parsePath g1 = .ok (p, g2))
    (hb : transformTree g2 (transform noMacros depth) = .ok body)
    (hplain : ∀ ch ∈ p, ch ≠ '"' ∧ ch ≠ '\\')
    (hok : Stmt.litsOkList body = true) :
    transform noMacros (depth + 1) g =
      .ok (keepPath [.setPath p, .eachResolved (keepPath (.setPathItem :: body))]) ∧
    (∀ (d : JSVal) (item : Option Str) (c : Str) (items : List JSVal),
      resolve d (addToPath c p) = .ok (.arr items) →
      execList d item
          (keepPath [.setPath p, .eachResolved (keepPath (.setPathItem :: body))]) c =
        emits c (concatRuns ((List.range items.length).map (fun i =>
          outputOf (execList d (some (natToStr i)) body
            (addToPath (addToPath c p) (natToStr i))))))) ∧
    (∀ (d : JSVal) (items : List JSVal),
      resolve (if truthy d then d else .obj []) (addToPath [] p) = .ok (.arr items) →
      render (depth + 2) noMacros input d =
        concatRuns ((List.range items.length).map (fun i =>
          outputOf (execList (if truthy d then d else .obj []) (some (natToStr i)) body
            (addToPath (addToPath [] p) (natToStr i)))))) := by
  have hdec : decodeLit p = some p := decodeLit_token g1 p g2 hp hplain
  have hlook : lookupMacro noMacros "each".toList = .fn eachMacro := rfl
  have hcode : transform noMacros (depth + 1) g =
      .ok (keepPath [.setPath p, .eachResolved (keepPath (.setPathItem :: body))]) := by
    rw [transform_named depth g g1 "each".toList eachMacro hname hlook]
    exact eachMacro_code g1 (transform noMacros depth) p g2 body hp hb
  have hexec : ∀ (d : JSVal) (item : Option Str) (c : Str) (items : List JSVal),
      resolve d (addToPath c p) = .ok (.arr items) →
      execList d item
          (keepPath [.setPath p, .eachResolved (keepPath (.setPathItem :: body))]) c =
        emits c (concatRuns ((List.range items.length).map (fun i =>
          outputOf (execList d (some (natToStr i)) body
            (addToPath (addToPath c p) (natToStr i)))))) := by
    intro d item c items hr
    rw [exec_each_code d item p p c body (.arr items)
      ((List.range items.length).map natToStr) hdec hr (by simp [eachKeys, truthy])]
    simp [List.map_map, Function.comp_def]
  refine ⟨hcode, hexec, fun d items hr => ?_⟩
  have hlits : Stmt.litsOkList
      (keepPath [.setPath p, .eachResolved (keepPath (.setPathItem :: body))]) = true := by
    simp [keepPath, Stmt.litsOkList, Stmt.litsOk, hdec, hok]
  rw [render_single_group depth input g _ d hparse hcode hlits, hexec _ none [] items hr]
  cases concatRuns ((List.range items.length).map (fun i =>
      outputOf (execList (if truthy d then d else .obj []) (some (natToStr i)) body
        (addToPath (addToPath [] p) (natToStr i))))) with
  | error e => rfl
  | ok o => rfl

/-- Witness of the amended C4: `{each pages {. title} }` renders `A B `
against `{pages:[{title:"A"},{title:"B"}]}`; `{each xs y}` runs its body
three times over `[0, null, ""]`; and the theorem at the first template. -/
theorem eachMacro_array_witness :
    render 3 noMacros pagesTemplate pagesData = .ok "A B ".toList ∧
    render 3 noMacros "\x7beach xs y\x7d".toList
      (.obj [("xs".toList, .arr [.num 0, .null, .str []])]) = .ok "yyy".toList ∧
    (transform noMacros (1 + 1)
        [.text "each pages ".toList, .group [.text ". title".toList], .text " ".toList] =
      .ok (keepPath [.setPath "pages".toList,
        .eachResolved (keepPath (.setPathItem :: pagesBody))]) ∧
    (∀ (d : JSVal) (item : Option Str) (c : Str) (items : List JSVal),
      resolve d (addToPath c "pages".toList) = .ok (.arr items) →
      execList d item
          (keepPath [.setPath "pages".toList,
            .eachResolved (keepPath (.setPathItem :: pagesBody))]) c =
        emits c (concatRuns ((List.range items.length).map (fun i =>
          outputOf (execList d (some (natToStr i)) pagesBody
            (addToPath (addToPath c "pages".toList) (natToStr i))))))) ∧
    (∀ (d : JSVal) (items : List JSVal),
      resolve (if truthy d then d else .obj []) (addToPath [] "pages".toList)
        = .ok (.arr items) →
      render (1 + 2) noMacros pagesTemplate d =
        concatRuns ((List.range items.length).map (fun i =>
          outputOf (execList (if truthy d then d else .obj []) (some (natToStr i)) pagesBody
            (addToPath (addToPath [] "pages".toList) (natToStr i))))))) :=
  ⟨rfl, rfl,
    eachMacro_array 1 pagesTemplate
      [.text "each pages ".toList, .group [.text ". title".toList], .text " ".toList]
      [.text "pages ".toList, .group [.text ". title".toList], .text " ".toList]
      [.text [], .group [.text ". title".toList], .text " ".toList]
      "pages".toList pagesBody rfl rfl rfl rfl (by decide) rfl⟩

/-- C4, counterexample. The argument token is backslash-`a`; against
`{"\\a": [1, 2]}` the path `addToPath("", p)` resolves to an array of two
items, so the claim has the body `x` run twice, but the generated literal
`"\a"` denotes the path `a`, which resolves to `undefined`, and the body
runs zero times. -/
theorem eachMacro_backslash_counterexample :
    resolve backslashArrayData (addToPath [] ['\\', 'a']) = .ok (.arr [.num 1, .num 2]) ∧
    resolve backslashArrayData (addToPath [] ['a']) = .ok .undefined ∧
    render 2 noMacros "x".toList backslashArrayData = .ok "x".toList ∧
    render 3 noMacros ("\x7beach ".toList ++ ['\\', 'a'] ++ " x\x7d".toList) backslashArrayData
      = .ok [] := by
  refine ⟨rfl, rfl, rfl, rfl⟩

/-! ## Parsing a template that is one group -/

theorem parseLoop_append (a b : Str) : ∀ st : PState,
    parseLoop st (a ++ b) =
      match parseLoop st a with
      | .error e => .error e
      | .ok st1 => parseLoop st1 b := by
  induction a with
  | nil => intro st; simp [parseLoop]
  | cons ch rest ih =>
    intro st
    simp only [List.cons_append, parseLoop]
    cases parseStep st ch with
    | error e => rfl
    | ok st1 => exact ih st1

theorem parseLoop_plain_append (t r s : Str) (stack : List (List Node))
    (ht : ∀ ch ∈ t, ch ≠ '{' ∧ ch ≠ '}') :
    parseLoop ⟨[.text s], stack⟩ (t ++ r) = parseLoop ⟨[.text (s ++ t)], stack⟩ r := by
  rw [parseLoop_append, parseLoop_plain t ht]

theorem parseLoop_open (cur : List Node) (stack : List (List Node)) (r : Str) :
    parseLoop ⟨cur, stack⟩ ('{' :: r) = parseLoop ⟨[.text []], cur :: stack⟩ r := by
  simp [parseLoop, parseStep]

theorem parseLoop_close (cur parent : List Node) (stack : List (List Node)) (r : Str) :
    parseLoop ⟨cur, parent :: stack⟩ ('}' :: r) =
      parseLoop ⟨parent ++ [.group cur, .text []], stack⟩ r := by
  have hne : ('}' : Char) ≠ '{' := by decide
  simp [parseLoop, parseStep, hne]

theorem out_plain : ∀ ch ∈ "out ".toList, ch ≠ '{' ∧ ch ≠ '}' := by decide

theorem parse_plain_group (t : Str) (ht : ∀ ch ∈ t, ch ≠ '{' ∧ ch ≠ '}') :
    parse ("out ".toList ++ '{' :: (t ++ ['}'])) =
      .ok [.text "out ".toList, .group [.text t], .text []] := by
  unfold parse
  rw [parseLoop_plain_append "out ".toList _ [] [] out_plain, parseLoop_open,
    parseLoop_plain_append t _ [] _ ht, parseLoop_close]
  simp [parseLoop]

theorem parse_nested_group (t u : Str) (ht : ∀ ch ∈ t, ch ≠ '{' ∧ ch ≠ '}')
    (hu : ∀ ch ∈ u, ch ≠ '{' ∧ ch ≠ '}') :
    parse ("out ".toList ++ '{' :: (t ++ '{' :: (u ++ ['}', '}']))) =
      .ok [.text "out ".toList, .group [.text t, .group [.text u], .text []], .text []] := by
  unfold parse
  rw [parseLoop_plain_append "out ".toList _ [] [] out_plain, parseLoop_open,
    parseLoop_plain_append t _ [] _ ht, parseLoop_open,
    parseLoop_plain_append u _ [] _ hu, parseLoop_close, parseLoop_close]
  simp [parseLoop]

theorem token_dropWhile (t : Str) (ht : ∀ ch ∈ t, isSpace ch = false) :
    t.dropWhile isSpace = t := by
  cases t with
  | nil => rfl
  | cons x xs =>
    have hx := ht x (by simp)
    simp [List.dropWhile, hx]

theorem transform_path_group (depth : Nat) (t : Str) (ht : ∀ ch ∈ t, isSpace ch = false) :
    transform noMacros (depth + 1) [.text ("path ".toList ++ t)] = .ok [.pushPath t] := by
  have hname : ∀ ch ∈ "path".toList, isSpace ch = false := by decide
  have hpa := parseArg_token_space "path".toList t [] hname
  have h5 : "path ".toList ++ t = "path".toList ++ ' ' :: t := rfl
  have hlook : lookupMacro noMacros "path".toList = .fn pathMacro := rfl
  rw [transform_succ, h5, hpa]
  simp only [hlook, token_dropWhile t ht, pathMacro, parsePath, parseArg_token_end t [] ht]

/-! ## The `path` macro -/

/-- C14, as amended. For every argument token `q` without whitespace,
braces, double quote and backslash, the template `{path q}` parses to one
group, the group compiles to `__out.push(addToPath(path, "q"))`, that
statement run at any current path `c` appends the string `addToPath(c, q)`
itself and keeps the path, whatever the data is, and rendering the
template gives `addToPath("", q)` for every data value. -/
theorem pathMacro_emits_path (depth : Nat) (q : Str)
    (hq : ∀ ch ∈ q, isSpace ch = false ∧ ch ≠ '{' ∧ ch ≠ '}' ∧ ch ≠ '"' ∧ ch ≠ '\\') :
    parse ("out ".toList ++ ("\x7bpath ".toList ++ q ++ "\x7d".toList)) =
      .ok [.text "out ".toList, .group [.text ("path ".toList ++ q)], .text []] ∧
    transform noMacros (depth + 1) [.text ("path ".toList ++ q)] = .ok [.pushPath q] ∧
    (∀ (d : JSVal) (item : Option Str) (c : Str),
      execList d item [.pushPath q] c = .ok (c, addToPath c q)) ∧
    (∀ d : JSVal,
      render (depth + 2) noMacros ("\x7bpath ".toList ++ q ++ "\x7d".toList) d
        = .ok (addToPath [] q)) := by
  have hbr : ∀ ch ∈ "path ".toList ++ q, ch ≠ '{' ∧ ch ≠ '}' := by
    intro ch hch
    rcases List.mem_append.mp hch with h | h
    · exact (by decide : ∀ x ∈ "path ".toList, x ≠ '{' ∧ x ≠ '}') ch h
    · exact ⟨(hq ch h).2.1, (hq ch h).2.2.1⟩
  have hin : "out ".toList ++ ("\x7bpath ".toList ++ q ++ "\x7d".toList) =
      "out ".toList ++ '{' :: (("path ".toList ++ q) ++ ['}']) := rfl
  have hparse := parse_plain_group ("path ".toList ++ q) hbr
  rw [← hin] at hparse
  have hcode := transform_path_group depth q (fun ch hch => (hq ch hch).1)
  have hdec : decodeLit q = some q := by
    apply decodeLit_plain
    intro ch hch
    have hs := (hq ch hch).1
    refine ⟨(hq ch hch).2.2.2.2, (hq ch hch).2.2.2.1, ?_, ?_⟩
    · intro he; rw [he] at hs; exact absurd hs (by decide)
    · intro he; rw [he] at hs; exact absurd hs (by decide)
  have hexec : ∀ (d : JSVal) (item : Option Str) (c : Str),
      execList d item [.pushPath q] c = .ok (c, addToPath c q) := by
    intro d item c
    rw [execList_singleton]
    simp only [exec, hdec]
  refine ⟨hparse, hcode, hexec, fun d => ?_⟩
  have hlits : Stmt.litsOkList [.pushPath q] = true := by
    simp [Stmt.litsOkList, Stmt.litsOk, hdec]
  rw [render_single_group depth _ _ _ d hparse hcode hlits, hexec]
  rfl

/-- Witness of the amended C14: `{-> person.name {path}}` renders
`person.name`, `{each foo {path bar} }` renders `foo.0.bar foo.1.bar `
against a two-element array at `foo`, and the theorem at the token `bar`. -/
theorem pathMacro_emits_path_witness :
    (∀ ch ∈ "bar".toList, isSpace ch = false ∧ ch ≠ '{' ∧ ch ≠ '}' ∧ ch ≠ '"' ∧ ch ≠ '\\') ∧
    render 3 noMacros "\x7b-> person.name \x7bpath\x7d\x7d".toList (.obj []) = .ok "person.name".toList ∧
    render 3 noMacros "\x7beach foo \x7bpath bar\x7d \x7d".toList
        (.obj [("foo".toList, .arr [.num 1, .num 2])]) = .ok "foo.0.bar foo.1.bar ".toList ∧
    render 3 noMacros "\x7beach foo \x7bpath bar\x7d \x7d".toList
        (.obj [("foo".toList, .arr [.null, .str "z".toList])])
      = .ok "foo.0.bar foo.1.bar ".toList ∧
    (parse ("out ".toList ++ ("\x7bpath ".toList ++ "bar".toList ++ "\x7d".toList)) =
      .ok [.text "out ".toList, .group [.text ("path ".toList ++ "bar".toList)], .text []] ∧
    transform noMacros (0 + 1) [.text ("path ".toList ++ "bar".toList)]
      = .ok [.pushPath "bar".toList] ∧
    (∀ (d : JSVal) (item : Option Str) (c : Str),
      execList d item [.pushPath "bar".toList] c = .ok (c, addToPath c "bar".toList)) ∧
    (∀ d : JSVal,
      render (0 + 2) noMacros ("\x7bpath ".toList ++ "bar".toList ++ "\x7d".toList) d
        = .ok (addToPath [] "bar".toList))) :=
  ⟨by decide, rfl, rfl, rfl, pathMacro_emits_path 0 "bar".toList (by decide)⟩

/-- C14, counterexample. The argument is backslash-`a`: `addToPath("", q)`
is the two characters backslash, `a`, but the generated literal `"\a"`
denotes `a`, and `{path \a}` renders `a`. -/
theorem pathMacro_backslash_counterexample :
    addToPath [] ['\\', 'a'] = ['\\', 'a'] ∧
    render 2 noMacros ("\x7bpath ".toList ++ ['\\', 'a'] ++ "\x7d".toList) (.obj []) = .ok ['a'] ∧
    (['a'] : Str) ≠ addToPath [] ['\\', 'a'] := by
  refine ⟨rfl, rfl, by decide⟩

/-! ## Descent by `->` against a dotted argument -/

theorem exec_descent_dot (d : JSVal) (item : Option Str) (la lb a b c : Str)
    (ha : a ≠ [] ∧ a ≠ ['.']) (hb : b ≠ [] ∧ b ≠ ['.'])
    (hla : decodeLit la = some a) (hlb : decodeLit lb = some b) :
    execList d item (keepPath [.setPath la, .pushResolve lb]) c =
      execList d item [.pushResolve (la ++ '.' :: lb)] c := by
  rw [keepPath, execList_singleton, exec_keepPath, exec_setPath_cons d item la a _ c hla,
    exec_pushResolve d item lb b (addToPath c a) hlb,
    exec_pushResolve d item (la ++ '.' :: lb) (a ++ '.' :: b) c
      (decodeLit_dot_join la lb a b hla hlb), addToPath_assoc c a b ha hb]
  cases resolve d (addToPath c (a ++ '.' :: b)) with
  | error e => rfl
  | ok v =>
    cases hj : JSVal.joinElem v with
    | error e => simp [emits, outputOf, hj]
    | ok s => simp [emits, outputOf, hj]

/-- C20, as amended. For all strings `c`, `a`, `b` with `a` and `b` neither
empty nor `.`, `addToPath(addToPath(c, a), b) = addToPath(c, a + "." + b)`.
When `a` and `b` are argument tokens without whitespace, braces, double
quote and backslash, the group `-> a {. b}` compiles to a closure that
sets the path by `a` and pushes the value at `b`, the group `. a.b`
compiles to one push, the two programs append the same text at the current
path `c` against every data value and keep the path, and the templates
`{-> a {. b}}` and `{. a.b}` render the same for every data value. -/
theorem descent_composes (c a b : Str) (ha : a ≠ [] ∧ a ≠ ['.']) (hb : b ≠ [] ∧ b ≠ ['.']) :
    addToPath (addToPath c a) b = addToPath c (a ++ '.' :: b) ∧
    ((∀ ch ∈ a ++ b, isSpace ch = false ∧ ch ≠ '{' ∧ ch ≠ '}' ∧ ch ≠ '"' ∧ ch ≠ '\\') →
      (∀ depth : Nat,
        transform noMacros (depth + 2)
            [.text ("-> ".toList ++ a ++ " ".toList), .group [.text (". ".toList ++ b)],
              .text []]
          = .ok (keepPath [.setPath a, .pushResolve b]) ∧
        transform noMacros (depth + 1) [.text (". ".toList ++ (a ++ '.' :: b))]
          = .ok [.pushResolve (a ++ '.' :: b)]) ∧
      (∀ (d : JSVal) (item : Option Str),
        execList d item (keepPath [.setPath a, .pushResolve b]) c =
          execList d item [.pushResolve (a ++ '.' :: b)] c) ∧
      (∀ (depth : Nat) (d : JSVal),
        render (depth + 3) noMacros
            ("\x7b-> ".toList ++ a ++ " \x7b. ".toList ++ b ++ "\x7d\x7d".toList) d =
          render (depth + 2) noMacros ("\x7b. ".toList ++ a ++ ".".toList ++ b ++ "\x7d".toList) d)) := by
  refine ⟨addToPath_assoc c a b ha hb, fun htok => ?_⟩
  have hta : ∀ ch ∈ a, isSpace ch = false ∧ ch ≠ '{' ∧ ch ≠ '}' ∧ ch ≠ '"' ∧ ch ≠ '\\' :=
    fun ch hch => htok ch (List.mem_append.mpr (Or.inl hch))
  have htb : ∀ ch ∈ b, isSpace ch = false ∧ ch ≠ '{' ∧ ch ≠ '}' ∧ ch ≠ '"' ∧ ch ≠ '\\' :=
    fun ch hch => htok ch (List.mem_append.mpr (Or.inr hch))
  have hplain : ∀ t : Str,
      (∀ ch ∈ t, isSpace ch = false ∧ ch ≠ '{' ∧ ch ≠ '}' ∧ ch ≠ '"' ∧ ch ≠ '\\') →
      decodeLit t = some t := by
    intro t ht
    apply decodeLit_plain
    intro ch hch
    have hs := (ht ch hch).1
    refine ⟨(ht ch hch).2.2.2.2, (ht ch hch).2.2.2.1, ?_, ?_⟩
    · intro he; rw [he] at hs; exact absurd hs (by decide)
    · intro he; rw [he] at hs; exact absurd hs (by decide)
  have hda := hplain a hta
  have hdb := hplain b htb
  have hdot : ∀ ch ∈ a ++ '.' :: b,
      isSpace ch = false ∧ ch ≠ '{' ∧ ch ≠ '}' ∧ ch ≠ '"' ∧ ch ≠ '\\' := by
    intro ch hch
    rcases List.mem_append.mp hch with h | h
    · exact hta ch h
    · rcases List.mem_cons.mp h with h | h
      · subst h; decide
      · exact htb ch h
  have harrow : ∀ depth : Nat,
      transform noMacros (depth + 2)
          [.text ("-> ".toList ++ a ++ " ".toList), .group [.text (". ".toList ++ b)], .text []]
        = .ok (keepPath [.setPath a, .pushResolve b]) := fun depth =>
    transform_arrow_dot_group depth a b ha.1 (fun ch hch => (hta ch hch).1)
      (fun ch hch => (htb ch hch).1)
  have hdotc : ∀ depth : Nat,
      transform noMacros (depth + 1) [.text (". ".toList ++ (a ++ '.' :: b))]
        = .ok [.pushResolve (a ++ '.' :: b)] := fun depth =>
    transform_dot_group depth (a ++ '.' :: b) (fun ch hch => (hdot ch hch).1)
  have hexec : ∀ (d : JSVal) (item : Option Str),
      execList d item (keepPath [.setPath a, .pushResolve b]) c =
        execList d item [.pushResolve (a ++ '.' :: b)] c := fun d item =>
    exec_descent_dot d item a b a b c ha hb hda hdb
  refine ⟨fun depth => ⟨harrow depth, hdotc depth⟩, hexec, fun depth d => ?_⟩
  have hbr1 : ∀ ch ∈ "-> ".toList ++ a ++ " ".toList, ch ≠ '{' ∧ ch ≠ '}' := by
    intro ch hch
    rcases List.mem_append.mp hch with h | h
    · rcases List.mem_append.mp h with h | h
      · exact (by decide : ∀ x ∈ "-> ".toList, x ≠ '{' ∧ x ≠ '}') ch h
      · exact ⟨(hta ch h).2.1, (hta ch h).2.2.1⟩
    · exact (by decide : ∀ x ∈ " ".toList, x ≠ '{' ∧ x ≠ '}') ch h
  have hbr2 : ∀ ch ∈ ". ".toList ++ b, ch ≠ '{' ∧ ch ≠ '}' := by
    intro ch hch
    rcases List.mem_append.mp hch with h | h
    · exact (by decide : ∀ x ∈ ". ".toList, x ≠ '{' ∧ x ≠ '}') ch h
    · exact ⟨(htb ch h).2.1, (htb ch h).2.2.1⟩
  have hbr3 : ∀ ch ∈ ". ".toList ++ (a ++ '.' :: b), ch ≠ '{' ∧ ch ≠ '}' := by
    intro ch hch
    rcases List.mem_append.mp hch with h | h
    · exact (by decide : ∀ x ∈ ". ".toList, x ≠ '{' ∧ x ≠ '}') ch h
    · exact ⟨(hdot ch h).2.1, (hdot ch h).2.2.1⟩
  have hin1 : "out ".toList ++ ("\x7b-> ".toList ++ a ++ " \x7b. ".toList ++ b ++ "\x7d\x7d".toList) =
      "out ".toList ++ '{' :: (("-> ".toList ++ a ++ " ".toList) ++
        '{' :: ((". ".toList ++ b) ++ ['}', '}'])) := by
    simp
  have hin2 : "out ".toList ++ ("\x7b. ".toList ++ a ++ ".".toList ++ b ++ "\x7d".toList) =
      "out ".toList ++ '{' :: ((". ".toList ++ (a ++ '.' :: b)) ++ ['}']) := by
    simp
  have hp1 := parse_nested_group ("-> ".toList ++ a ++ " ".toList) (". ".toList ++ b) hbr1 hbr2
  rw [← hin1] at hp1
  have hp2 := parse_plain_group (". ".toList ++ (a ++ '.' :: b)) hbr3
  rw [← hin2] at hp2
  have hl1 : Stmt.litsOkList (keepPath [.setPath a, .pushResolve b]) = true := by
    simp [keepPath, Stmt.litsOkList, Stmt.litsOk, hda, hdb]
  have hl2 : Stmt.litsOkList [.pushResolve (a ++ '.' :: b)] = true := by
    simp [Stmt.litsOkList, Stmt.litsOk, decodeLit_dot_join a b a b hda hdb]
  rw [render_single_group (depth + 1) _ _ _ d hp1 (harrow depth) hl1,
    render_single_group depth _ _ _ d hp2 (hdotc depth) hl2,
    exec_descent_dot _ none a b a b [] ha hb hda hdb]

/-- Witness of the amended C20: `{-> a {. b}}` and `{. a.b}` both render
`1` against `{a:{b:1}}`, and the theorem at `c = ""` and the tokens `a`,
`b`. -/
theorem descent_composes_witness :
    (∀ ch ∈ "a".toList ++ "b".toList,
      isSpace ch = false ∧ ch ≠ '{' ∧ ch ≠ '}' ∧ ch ≠ '"' ∧ ch ≠ '\\') ∧
    render 3 noMacros "\x7b-> a \x7b. b\x7d\x7d".toList
        (.obj [("a".toList, .obj [("b".toList, .num 1)])]) = .ok "1".toList ∧
    render 2 noMacros "\x7b. a.b\x7d".toList
        (.obj [("a".toList, .obj [("b".toList, .num 1)])]) = .ok "1".toList ∧
    (addToPath (addToPath [] "a".toList) "b".toList
        = addToPath [] ("a".toList ++ '.' :: "b".toList) ∧
    ((∀ ch ∈ "a".toList ++ "b".toList,
        isSpace ch = false ∧ ch ≠ '{' ∧ ch ≠ '}' ∧ ch ≠ '"' ∧ ch ≠ '\\') →
      (∀ depth : Nat,
        transform noMacros (depth + 2)
            [.text ("-> ".toList ++ "a".toList ++ " ".toList),
              .group [.text (". ".toList ++ "b".toList)], .text []]
          = .ok (keepPath [.setPath "a".toList, .pushResolve "b".toList]) ∧
        transform noMacros (depth + 1)
            [.text (". ".toList ++ ("a".toList ++ '.' :: "b".toList))]
          = .ok [.pushResolve ("a".toList ++ '.' :: "b".toList)]) ∧
      (∀ (d : JSVal) (item : Option Str),
        execList d item (keepPath [.setPath "a".toList, .pushResolve "b".toList]) [] =
          execList d item [.pushResolve ("a".toList ++ '.' :: "b".toList)] []) ∧
      (∀ (depth : Nat) (d : JSVal),
        render (depth + 3) noMacros
            ("\x7b-> ".toList ++ "a".toList ++ " \x7b. ".toList ++ "b".toList ++ "\x7d\x7d".toList) d =
          render (depth + 2) noMacros
            ("\x7b. ".toList ++ "a".toList ++ ".".toList ++ "b".toList ++ "\x7d".toList) d))) :=
  ⟨by decide, rfl, rfl, descent_composes [] "a".toList "b".toList (by decide) (by decide)⟩

/-- C20, counterexample. With `a` the two characters backslash, `.` (neither
empty nor `.`) and `b = "b"`, against `{b: 1}`: `{-> a {. b}}` renders `1`
(the literal `"\."` denotes `.`, which keeps the path), and `{. a.b}`
renders the empty string (the literal denotes `..b`). -/
theorem descent_backslash_counterexample :
    (['\\', '.'] : Str) ≠ [] ∧ (['\\', '.'] : Str) ≠ ['.'] ∧
    render 3 noMacros ("\x7b-> ".toList ++ ['\\', '.'] ++ " \x7b. ".toList ++ "b".toList ++ "\x7d\x7d".toList)
        (.obj [("b".toList, .num 1)]) = .ok "1".toList ∧
    render 2 noMacros ("\x7b. ".toList ++ ['\\', '.'] ++ ".".toList ++ "b".toList ++ "\x7d".toList)
        (.obj [("b".toList, .num 1)]) = .ok [] := by
  refine ⟨by decide, by decide, rfl, rfl⟩

/-! ## The `literal` macro on a parsed group -/

theorem parseLoop_frame (base : List (List Node)) (r : Str) :
    ∀ (cur cur1 : List Node) (stk stk1 : List (List Node)),
      parseLoop ⟨cur, stk⟩ r = .ok ⟨cur1, stk1⟩ →
      parseLoop ⟨cur, stk ++ base⟩ r = .ok ⟨cur1, stk1 ++ base⟩ := by
  induction r with
  | nil =>
    intro cur cur1 stk stk1 h
    simp only [parseLoop, Except.ok.injEq, PState.mk.injEq] at h ⊢
    exact ⟨h.1, by rw [h.2]⟩
  | cons ch rest ih =>
    intro cur cur1 stk stk1 h
    simp only [parseLoop, parseStep] at h ⊢
    by_cases h1 : ch = '{'
    · simp only [h1, if_true] at h ⊢
      exact ih [.text []] cur1 (cur :: stk) stk1 h
    · simp only [h1, if_false] at h ⊢
      by_cases h2 : ch = '}'
      · simp only [h2, if_true] at h ⊢
        cases stk with
        | nil => simp at h
        | cons parent more =>
          simp only [List.cons_append] at h ⊢
          exact ih _ cur1 more stk1 h
      · simp only [h2, if_false] at h ⊢
        exact ih _ cur1 stk stk1 h

theorem appendChar_first (s : Str) (tl : List Node) (ch : Char) :
    ∃ x tl1, appendChar (.text s :: tl) ch = .text (s ++ x) :: tl1 := by
  cases tl with
  | nil => exact ⟨[ch], [], rfl⟩
  | cons m more => exact ⟨[], appendChar (m :: more) ch, by simp [appendChar]⟩

theorem parseStep_bottom (s0 : Str) (ch : Char) (cur : List Node) (stk : List (List Node))
    (st1 : PState) (h : parseStep ⟨cur, stk⟩ ch = .ok st1)
    (hb : ∃ x tl, bottomFrame cur stk = .text (s0 ++ x) :: tl) :
    ∃ x tl, bottomFrame st1.current st1.stack = .text (s0 ++ x) :: tl := by
  unfold parseStep at h
  by_cases h1 : ch = '{'
  · simp only [h1, if_true, Except.ok.injEq] at h
    subst h
    exact hb
  · simp only [h1, if_false] at h
    by_cases h2 : ch = '}'
    · simp only [h2, if_true] at h
      cases stk with
      | nil => simp at h
      | cons parent rest =>
        simp only [Except.ok.injEq] at h
        subst h
        cases rest with
        | nil =>
          obtain ⟨x, tl, hx⟩ := hb
          simp only [bottomFrame] at hx
          exact ⟨x, tl ++ [.group cur, .text []], by simp [bottomFrame, hx]⟩
        | cons q more => exact hb
    · simp only [h2, if_false, Except.ok.injEq] at h
      subst h
      cases stk with
      | nil =>
        obtain ⟨x, tl, hx⟩ := hb
        simp only [bottomFrame] at hx
        obtain ⟨y, tl1, hy⟩ := appendChar_first (s0 ++ x) tl ch
        exact ⟨x ++ y, tl1, by simp [bottomFrame, hx, hy]⟩
      | cons p rest => exact hb

theorem parseLoop_bottom (s0 : Str) (r : Str) :
    ∀ (cur : List Node) (stk : List (List Node)) (st1 : PState),
      parseLoop ⟨cur, stk⟩ r = .ok st1 →
      (∃ x tl, bottomFrame cur stk = .text (s0 ++ x) :: tl) →
      ∃ x tl, bottomFrame st1.current st1.stack = .text (s0 ++ x) :: tl := by
  induction r with
  | nil =>
    intro cur stk st1 h hb
    simp only [parseLoop, Except.ok.injEq] at h
    subst h
    exact hb
  | cons ch rest ih =>
    intro cur stk st1 h hb
    simp only [parseLoop] at h
    cases hstep : parseStep ⟨cur, stk⟩ ch with
    | error e => simp [hstep] at h
    | ok st2 =>
      simp only [hstep] at h
      exact ih st2.current st2.stack st1 h (parseStep_bottom s0 ch cur stk st2 hstep hb)

theorem parse_literal_group (b : Str) (hbal : Balanced b) :
    ∃ x tl,
      parse ("out ".toList ++ '{' :: ("literal ".toList ++ (b ++ ['}']))) =
        .ok [.text "out ".toList, .group (.text ("literal ".toList ++ x) :: tl), .text []] ∧
      x ++ rejoin tl = b := by
  have hscan : scanDepth 0 b = some 0 := (balanced_iff_scanDepth b).mp hbal
  have hd := parseLoop_depth b ⟨[.text "literal ".toList], []⟩
  have hlit : ∀ ch ∈ "literal ".toList, ch ≠ '{' ∧ ch ≠ '}' := by decide
  cases hp : parseLoop ⟨[.text "literal ".toList], []⟩ b with
  | error e =>
    rw [hp] at hd
    simp only [List.length_nil] at hd
    rw [hscan] at hd
    exact absurd hd.1 (by simp)
  | ok st =>
    rw [hp] at hd
    simp only [List.length_nil] at hd
    rw [hscan] at hd
    have hlen : st.stack.length = 0 := (Option.some.inj hd).symm
    have hnil : st.stack = [] := List.length_eq_zero.mp hlen
    obtain ⟨x, tl, hx⟩ := parseLoop_bottom "literal ".toList b [.text "literal ".toList] [] st hp
      ⟨[], [], by simp [bottomFrame]⟩
    rw [hnil] at hx
    simp only [bottomFrame] at hx
    have hu := parseLoop_unparse b ⟨[.text "literal ".toList], []⟩ st
      ⟨[], "literal ".toList, rfl⟩ hp
    simp only [unparse, hnil, openPrefix, rejoin, rejoinItem, hx, List.nil_append,
      List.append_nil, List.append_assoc, List.append_cancel_left_eq] at hu
    have hframe := parseLoop_frame [[.text "out ".toList]] b [.text "literal ".toList]
      st.current [] st.stack hp
    rw [hnil, hx] at hframe
    simp only [List.nil_append] at hframe
    refine ⟨x, tl, ?_, hu⟩
    unfold parse
    rw [parseLoop_plain_append "out ".toList _ [] [] out_plain, parseLoop_open,
      parseLoop_plain_append "literal ".toList _ [] _ hlit, parseLoop_append]
    simp only [List.nil_append]
    rw [hframe]
    simp only [parseLoop_close]
    simp [parseLoop]

theorem dropWhile_self_head (ch : Char) (r : Str)
    (h : (ch :: r).dropWhile isSpace = ch :: r) : isSpace ch = false := by
  cases hs : isSpace ch with
  | false => rfl
  | true =>
    simp only [List.dropWhile, hs] at h
    have hlen := congrArg List.length h
    have hle := (List.dropWhile_sublist isSpace (l := r)).length_le
    simp only [List.length_cons] at hlen
    omega

theorem dropWhile_self_prefix (x y : Str) (h : (x ++ y).dropWhile isSpace = x ++ y) :
    x.dropWhile isSpace = x := by
  cases x with
  | nil => rfl
  | cons ch xs =>
    have hc := dropWhile_self_head ch (xs ++ y) h
    simp [List.dropWhile, hc]

/-- C16. The macro `literal` of `src/macro.js`, with the function
`helper.escapeJS` of the absent module `./helper` as the parameter
`escapeJS`. For every body text `b` whose braces balance, that does not
start with whitespace, and whose escaped form between double quotes
denotes `b`: `{literal b}` parses to one group `g`; `parseArg` takes the
name `literal` off it and leaves a tree `g1` whose source text is `b`; the
macro compiles `g1`, without calling `transform`, to one
`__out.push("...")` of the escaped text; that statement appends exactly
`b`; and rendering the template with the macro in the caller's table gives
`b` for every data value. -/
theorem literalMacro_emits_body (escapeJS : Str → Str) (b : Str)
    (hbal : Balanced b) (hstart : b.dropWhile isSpace = b)
    (hesc : decodeLit (escapeJS b) = some b) :
    ∃ g g1,
      parse ("out ".toList ++ ("\x7bliteral ".toList ++ b ++ "\x7d".toList)) =
        .ok [.text "out ".toList, .group g, .text []] ∧
      parseArg g = .ok ("literal".toList, g1) ∧
      rejoin g1 = b ∧
      (∀ recurse : Transform, literalMacro escapeJS g1 recurse = .ok [.pushLit (escapeJS b)]) ∧
      (∀ (d : JSVal) (item : Option Str) (c : Str),
        execList d item [.pushLit (escapeJS b)] c = .ok (c, b)) ∧
      (∀ (depth : Nat) (d : JSVal),
        render (depth + 2) (literalOnly escapeJS) ("\x7bliteral ".toList ++ b ++ "\x7d".toList) d
          = .ok b) := by
  obtain ⟨x, tl, hparse0, hxb⟩ := parse_literal_group b hbal
  have hin : "out ".toList ++ ("\x7bliteral ".toList ++ b ++ "\x7d".toList) =
      "out ".toList ++ '{' :: ("literal ".toList ++ (b ++ ['}'])) := by simp
  have hparse : parse ("out ".toList ++ ("\x7bliteral ".toList ++ b ++ "\x7d".toList)) =
      .ok [.text "out ".toList, .group (.text ("literal ".toList ++ x) :: tl), .text []] := by
    rw [hin]; exact hparse0
  have hname : ∀ ch ∈ "literal".toList, isSpace ch = false := by decide
  have hx : x.dropWhile isSpace = x := by
    rw [← hxb] at hstart
    exact dropWhile_self_prefix x (rejoin tl) hstart
  have hpa : parseArg (.text ("literal ".toList ++ x) :: tl) =
      .ok ("literal".toList, .text x :: tl) := by
    have h := parseArg_token_space "literal".toList x tl hname
    rw [hx] at h
    exact h
  have hrejoin : rejoin (.text x :: tl) = b := by
    simp only [rejoin, rejoinItem]
    exact hxb
  have hmacro : ∀ recurse : Transform,
      literalMacro escapeJS (.text x :: tl) recurse = .ok [.pushLit (escapeJS b)] := by
    intro recurse
    simp only [literalMacro, hrejoin]
  have hexec : ∀ (d : JSVal) (item : Option Str) (c : Str),
      execList d item [.pushLit (escapeJS b)] c = .ok (c, b) := by
    intro d item c
    rw [execList_singleton]
    simp only [exec, hesc]
  refine ⟨.text ("literal ".toList ++ x) :: tl, .text x :: tl, hparse, hpa, hrejoin, hmacro,
    hexec, fun depth d => ?_⟩
  have hout : ∀ ch ∈ ['o', 'u', 't'], isSpace ch = false := by decide
  have hpo := parseArg_token_space ['o', 'u', 't'] []
    [.group (.text ("literal ".toList ++ x) :: tl), .text []] hout
  have h4 : "out ".toList = ['o', 'u', 't'] ++ [' '] := rfl
  have hlook1 : lookupMacro (literalOnly escapeJS) ['o', 'u', 't'] = .fn outMacro := rfl
  have hlook2 : lookupMacro (literalOnly escapeJS) "literal".toList
      = .fn (literalMacro escapeJS) := rfl
  have hg : transform (literalOnly escapeJS) (depth + 1) (.text ("literal ".toList ++ x) :: tl)
      = .ok [.pushLit (escapeJS b)] := by
    rw [transform_succ, hpa]
    simp only [hlook2]
    exact hmacro _
  have htr : transform (literalOnly escapeJS) (depth + 2)
      [.text "out ".toList, .group (.text ("literal ".toList ++ x) :: tl), .text []]
      = .ok [.pushLit (escapeJS b)] := by
    rw [transform_succ, h4, hpo]
    simp only [hlook1, outMacro, List.dropWhile, transformTree, output, hg, if_true,
      List.nil_append, List.append_nil]
  have hlits : Stmt.litsOkList [.pushLit (escapeJS b)] = true := by
    simp [Stmt.litsOkList, Stmt.litsOk, hesc]
  simp only [render, compile, hparse, htr, wrapTemplate, hlits, if_true, Program.run, hexec]

/-- Witness of C16 with `helper.escapeJS` of `index.js` as the helper:
`{literal {hello: bla}}` renders `{hello: bla}`; a body without backslash
and carriage return meets the hypothesis on the escaped text; and the
theorem at the body `{hello: bla}`. -/
theorem literalMacro_emits_body_witness :
    Balanced "\x7bhello: bla\x7d".toList ∧
    "\x7bhello: bla\x7d".toList.dropWhile isSpace = "\x7bhello: bla\x7d".toList ∧
    decodeLit (escapeJS "\x7bhello: bla\x7d".toList) = some "\x7bhello: bla\x7d".toList ∧
    render 2 (literalOnly escapeJS) "\x7bliteral \x7bhello: bla\x7d\x7d".toList (.obj [])
      = .ok "\x7bhello: bla\x7d".toList ∧
    (∀ x : Str, (∀ ch ∈ x, ch ≠ '\\' ∧ ch ≠ Char.ofNat 13) →
      decodeLit (escapeJS x) = some x) ∧
    (∃ g g1,
      parse ("out ".toList ++ ("\x7bliteral ".toList ++ "\x7bhello: bla\x7d".toList ++ "\x7d".toList)) =
        .ok [.text "out ".toList, .group g, .text []] ∧
      parseArg g = .ok ("literal".toList, g1) ∧
      rejoin g1 = "\x7bhello: bla\x7d".toList ∧
      (∀ recurse : Transform,
        literalMacro escapeJS g1 recurse = .ok [.pushLit (escapeJS "\x7bhello: bla\x7d".toList)]) ∧
      (∀ (d : JSVal) (item : Option Str) (c : Str),
        execList d item [.pushLit (escapeJS "\x7bhello: bla\x7d".toList)] c
          = .ok (c, "\x7bhello: bla\x7d".toList)) ∧
      (∀ (depth : Nat) (d : JSVal),
        render (depth + 2) (literalOnly escapeJS)
            ("\x7bliteral ".toList ++ "\x7bhello: bla\x7d".toList ++ "\x7d".toList) d
          = .ok "\x7bhello: bla\x7d".toList)) :=
  ⟨by decide, by decide, by decide, by decide!, decodeLit_escapeJS,
    literalMacro_emits_body escapeJS "\x7bhello: bla\x7d".toList (by decide) (by decide) (by decide)⟩

end RichardParker
